import Mathlib

/-!
# Verification of the clipboard Q&A system (qa_finder.py / qa_finder_gnome.py)

A shallow embedding of the question store, matcher and transport client of
the repository, together with proofs and refutations of the specification
claims.  JSON values are modelled by the inductive `Json` (numbers as
integers), Python strings by Lean `String`, machine floats by `Rat`; the
file system / `json.load` layer is abstracted by `FileSource`.
-/

namespace QA

/-- JSON-like Python values as stored in the corpus file.  Objects are
association lists (first binding wins on lookup, as Python dicts have
unique keys); numbers are modelled as integers. -/
inductive Json where
  | null : Json
  | bool (b : Bool) : Json
  | num (n : Int) : Json
  | str (s : String) : Json
  | arr (xs : List Json) : Json
  | obj (fields : List (String × Json)) : Json
deriving Repr

mutual

/-- Structural equality test on `Json` (Python `==` restricted to these values). -/
def Json.beq : Json → Json → Bool
  | .null, .null => true
  | .bool a, .bool b => a == b
  | .num a, .num b => a == b
  | .str a, .str b => a == b
  | .arr a, .arr b => Json.beqList a b
  | .obj a, .obj b => Json.beqFields a b
  | _, _ => false

/-- Elementwise equality of JSON arrays. -/
def Json.beqList : List Json → List Json → Bool
  | [], [] => true
  | a :: as, b :: bs => Json.beq a b && Json.beqList as bs
  | _, _ => false

/-- Bindingwise equality of JSON objects. -/
def Json.beqFields : List (String × Json) → List (String × Json) → Bool
  | [], [] => true
  | (ka, va) :: as, (kb, vb) :: bs => ka == kb && Json.beq va vb && Json.beqFields as bs
  | _, _ => false

end

instance : BEq Json := ⟨Json.beq⟩

mutual

theorem Json.beq_eq : ∀ a b : Json, Json.beq a b = true → a = b
  | .null, .null, _ => rfl
  | .bool _, .bool _, h => by
      simp only [Json.beq] at h; exact congrArg Json.bool (eq_of_beq h)
  | .num _, .num _, h => by
      simp only [Json.beq] at h; exact congrArg Json.num (eq_of_beq h)
  | .str _, .str _, h => by
      simp only [Json.beq] at h; exact congrArg Json.str (eq_of_beq h)
  | .arr a, .arr b, h => by
      simp only [Json.beq] at h
      exact congrArg Json.arr (Json.beqList_eq a b h)
  | .obj a, .obj b, h => by
      simp only [Json.beq] at h
      exact congrArg Json.obj (Json.beqFields_eq a b h)

theorem Json.beqList_eq : ∀ a b : List Json, Json.beqList a b = true → a = b
  | [], [], _ => rfl
  | x :: xs, y :: ys, h => by
      simp only [Json.beqList, Bool.and_eq_true] at h
      rw [Json.beq_eq x y h.1, Json.beqList_eq xs ys h.2]

theorem Json.beqFields_eq : ∀ a b : List (String × Json), Json.beqFields a b = true → a = b
  | [], [], _ => rfl
  | (ka, va) :: xs, (kb, vb) :: ys, h => by
      simp only [Json.beqFields, Bool.and_eq_true] at h
      obtain ⟨⟨hk, hv⟩, hs⟩ := h
      rw [eq_of_beq hk, Json.beq_eq va vb hv, Json.beqFields_eq xs ys hs]

end

mutual

theorem Json.beq_refl : ∀ a : Json, Json.beq a a = true
  | .null => rfl
  | .bool b => by simp [Json.beq]
  | .num n => by simp [Json.beq]
  | .str s => by simp [Json.beq]
  | .arr xs => by simpa [Json.beq] using Json.beqList_refl xs
  | .obj fs => by simpa [Json.beq] using Json.beqFields_refl fs

theorem Json.beqList_refl : ∀ a : List Json, Json.beqList a a = true
  | [] => rfl
  | x :: xs => by
      simp only [Json.beqList, Bool.and_eq_true]
      exact ⟨Json.beq_refl x, Json.beqList_refl xs⟩

theorem Json.beqFields_refl : ∀ a : List (String × Json), Json.beqFields a a = true
  | [] => rfl
  | (k, v) :: xs => by
      simp only [Json.beqFields, Bool.and_eq_true]
      exact ⟨⟨by simp, Json.beq_refl v⟩, Json.beqFields_refl xs⟩

end

instance : DecidableEq Json := fun a b =>
  if h : Json.beq a b = true then
    .isTrue (Json.beq_eq a b h)
  else
    .isFalse (fun he => h (he ▸ Json.beq_refl a))

instance : LawfulBEq Json where
  eq_of_beq h := Json.beq_eq _ _ h
  rfl := Json.beq_refl _

/-- Python truthiness (`if value:`) of a JSON value. -/
def Json.truthy : Json → Bool
  | .null => false
  | .bool b => b
  | .num n => n != 0
  | .str s => !s.isEmpty
  | .arr xs => !xs.isEmpty
  | .obj fs => !fs.isEmpty

/-- Dict lookup: `d[k]` / `d.get(k)` on the association list of an object. -/
def lookupField (fs : List (String × Json)) (k : String) : Option Json :=
  match fs.find? (fun p => p.1 == k) with
  | some p => some p.2
  | none => none

/-- `'k' in d` for a Python dict. -/
def hasKey (fs : List (String × Json)) (k : String) : Bool :=
  (lookupField fs k).isSome

/-! ## Python string primitives

Python `str.strip` / `str.split` / `str.lower`, modelled on `List Char`
with Lean's `Char.isWhitespace` as the whitespace class and `Char.toLower`
(basic-latin lowering) as the case folding. -/

/-- `str.strip()`: drop whitespace from both ends. -/
def pyStrip (l : List Char) : List Char :=
  ((l.dropWhile Char.isWhitespace).reverse.dropWhile Char.isWhitespace).reverse

/-- `str.strip()` on a `String`. -/
def pyStripStr (s : String) : String := ⟨pyStrip s.data⟩

/-- Worker for `str.split()`: accumulate the current word (reversed) and cut
at whitespace, dropping empty fragments. -/
def splitWsAux : List Char → List Char → List (List Char)
  | [], acc => if acc.isEmpty then [] else [acc.reverse]
  | c :: cs, acc =>
      if c.isWhitespace then
        if acc.isEmpty then splitWsAux cs [] else acc.reverse :: splitWsAux cs []
      else
        splitWsAux cs (c :: acc)

/-- `str.split()` (no separator): split on runs of whitespace, no empty parts. -/
def splitWs (l : List Char) : List (List Char) := splitWsAux l []

/-- `' '.join(parts)` on character lists. -/
def joinSp : List (List Char) → List Char
  | [] => []
  | [w] => w
  | w :: ws => w ++ ' ' :: joinSp ws

/-- `' '.join(text.lower().strip().split())` on the character list. -/
def normChars (l : List Char) : List Char :=
  joinSp (splitWs (pyStrip (l.map Char.toLower)))

/-- `normalisiere_text` on an actual string (the `isinstance(text, str)` branch). -/
def normalisiere_text (s : String) : String := ⟨normChars s.data⟩

/-- `normalisiere_text` applied to an arbitrary value: non-strings normalise
to the empty string (the `isinstance` guard). -/
def normJson : Json → String
  | .str s => normalisiere_text s
  | _ => ""

/-! ## Question store: `validiere_frage` and `lade_fragen_sicher` -/

/-- The answer part of `validiere_frage`: a usable `answer` string, or else a
non-empty `answers` list all of whose elements are non-blank strings. -/
def hasUsableAnswer (fs : List (String × Json)) : Bool :=
  if (match lookupField fs "answer" with
      | some (.str s) => !(pyStripStr s).isEmpty
      | _ => false) then
    true
  else
    match lookupField fs "answers" with
    | some (.arr xs) =>
        !xs.isEmpty &&
          xs.all (fun a =>
            match a with
            | .str s => !(pyStripStr s).isEmpty
            | _ => false)
    | _ => false

/-- `validiere_frage`: entry must be a dict with a non-blank string
`question` and at least one usable answer. -/
def validiere_frage (eintrag : Json) : Bool :=
  match eintrag with
  | .obj fs =>
      match lookupField fs "question" with
      | some (.str s) => !(pyStripStr s).isEmpty && hasUsableAnswer fs
      | some _ => false
      | none => false
  | _ => false

/-- The state of the corpus file as observed by `lade_fragen_sicher`,
abstracting the file-system and `json.load` library calls it makes:
the file may be missing, present but zero-sized, non-empty but not valid
JSON, or parse to a JSON value. -/
inductive FileSource where
  | missing : FileSource
  | empty : FileSource
  | unparseable : FileSource
  | parsed (j : Json) : FileSource
deriving DecidableEq, Repr

/-- `lade_fragen_sicher`: returns the stored corpus (`self.fragen`) on
success and `none` on any failure path.  Note that on success the *entire*
decoded list is stored; per-entry validation only feeds the
`valid_questions` count. -/
def lade_fragen_sicher (src : FileSource) : Option (List Json) :=
  match src with
  | .missing => none
  | .empty => none
  | .unparseable => none
  | .parsed j =>
      match j with
      | .arr data =>
          if data.isEmpty then none
          else if data.countP (fun e => validiere_frage e) = 0 then none
          else some data
      | _ => none

/-! ## `difflib` fuzzy matching

`get_close_matches(suchtext, fragen_texte, n=3, cutoff=0.6)` with
`SequenceMatcher(None, x, word)` (no junk predicate, autojunk on).  The
`real_quick_ratio`/`quick_ratio` prefilters are upper bounds on `ratio`, so
membership in the result is decided by `ratio >= cutoff` alone; float
scores are modelled as exact rationals. -/

namespace Difflib

/-- All positions of `c` in `b`, ascending: the raw `b2j` occurrence list. -/
def positions (b : List Char) (c : Char) : List Nat :=
  (b.enum.filter (fun p => p.2 == c)).map (fun p => p.1)

/-- difflib autojunk: for `len(b) >= 200`, elements occurring more than
`len(b) // 100 + 1` times are "popular" and dropped from `b2j`. -/
def isPopular (b : List Char) (c : Char) : Bool :=
  decide (200 ≤ b.length) && decide (b.length / 100 + 1 < (positions b c).length)

/-- `b2j` as consulted by the matching loop (popular entries removed). -/
def b2j (b : List Char) (c : Char) : List Nat :=
  if isPopular b c then [] else positions b c

/-- The current best block `(besti, bestj, bestsize)` of `find_longest_match`. -/
structure Block where
  besti : Nat
  bestj : Nat
  bestsize : Nat
deriving DecidableEq, Repr

/-- Inner loop of `find_longest_match` over the occurrence list of `a[i]`:
builds `newj2len` and updates the best block on strictly longer runs.
`j2len j` is the run length ending at `(i-1, j)`; Python's
`j2len.get(j-1, 0)` at `j = 0` reads the absent key `-1`, hence the
explicit zero case. -/
def innerLoop (j2len : Nat → Nat) (i blo bhi : Nat) :
    List Nat → (Nat → Nat) → Block → ((Nat → Nat) × Block)
  | [], newj2len, st => (newj2len, st)
  | j :: js, newj2len, st =>
      if j < blo then innerLoop j2len i blo bhi js newj2len st
      else if bhi ≤ j then (newj2len, st)
      else
        let k := (if j = 0 then 0 else j2len (j - 1)) + 1
        let newj2len' := fun x => if x = j then k else newj2len x
        let st' := if st.bestsize < k then Block.mk (i + 1 - k) (j + 1 - k) k else st
        innerLoop j2len i blo bhi js newj2len' st'

/-- Outer loop of `find_longest_match` over `i in range(alo, ahi)`. -/
def outerLoop (a b : List Char) (blo bhi : Nat) :
    List Nat → (Nat → Nat) → Block → Block
  | [], _, st => st
  | i :: is, j2len, st =>
      let p := innerLoop j2len i blo bhi (b2j b (a.getD i ' ')) (fun _ => 0) st
      outerLoop a b blo bhi is p.1 p.2

/-- First extension loop: grow the best block leftwards over equal elements
(the junk set is empty, so `not isbjunk(...)` always holds).  The fuel is an
upper bound on the iterations; `besti` strictly decreases each step. -/
def extendLeft (a b : List Char) (alo blo : Nat) : Nat → Block → Block
  | 0, st => st
  | fuel + 1, st =>
      if alo < st.besti ∧ blo < st.bestj ∧
          a.getD (st.besti - 1) ' ' = b.getD (st.bestj - 1) ' ' then
        extendLeft a b alo blo fuel ⟨st.besti - 1, st.bestj - 1, st.bestsize + 1⟩
      else st

/-- Second extension loop: grow the best block rightwards over equal elements. -/
def extendRight (a b : List Char) (ahi bhi : Nat) : Nat → Block → Block
  | 0, st => st
  | fuel + 1, st =>
      if st.besti + st.bestsize < ahi ∧ st.bestj + st.bestsize < bhi ∧
          a.getD (st.besti + st.bestsize) ' ' = b.getD (st.bestj + st.bestsize) ' ' then
        extendRight a b ahi bhi fuel ⟨st.besti, st.bestj, st.bestsize + 1⟩
      else st

/-- `find_longest_match(alo, ahi, blo, bhi)`: the `j2len` dynamic programme
followed by the two non-junk extension loops.  The final pair of junk
extension loops never fires because `isjunk` is `None` (`bjunk` empty). -/
def findLongestMatch (a b : List Char) (alo ahi blo bhi : Nat) : Block :=
  let base := outerLoop a b blo bhi (List.range' alo (ahi - alo)) (fun _ => 0) ⟨alo, blo, 0⟩
  let left := extendLeft a b alo blo base.besti base
  extendRight a b ahi bhi (ahi - (left.besti + left.bestsize)) left

/-- Total size of the blocks produced by `get_matching_blocks`, by the same
interval splitting (the worklist order and the collapsing of adjacent
blocks do not change the total, and the dummy block is empty; `ratio` only
uses this sum).  The fuel bounds the recursion depth: every recursive call
strictly shrinks the `a`-interval, so `len(a) + 1` levels always suffice. -/
def matchSumFuel (a b : List Char) : Nat → Nat → Nat → Nat → Nat → Nat
  | 0, _, _, _, _ => 0
  | fuel + 1, alo, ahi, blo, bhi =>
      let m := findLongestMatch a b alo ahi blo bhi
      if m.bestsize = 0 then 0
      else
        m.bestsize
          + (if alo < m.besti ∧ blo < m.bestj then
               matchSumFuel a b fuel alo m.besti blo m.bestj
             else 0)
          + (if m.besti + m.bestsize < ahi ∧ m.bestj + m.bestsize < bhi then
               matchSumFuel a b fuel (m.besti + m.bestsize) ahi (m.bestj + m.bestsize) bhi
             else 0)

/-- Total matched size between the full sequences. -/
def matchTotal (a b : List Char) : Nat :=
  matchSumFuel a b (a.length + b.length + 1) 0 a.length 0 b.length

/-- `SequenceMatcher(None, a, b).ratio() = 2*M / (len(a)+len(b))` as one
exact fraction. -/
def ratioQ (a b : List Char) : Rat :=
  mkRat (2 * (matchTotal a b : Int)) (a.length + b.length)

/-- The order `heapq.nlargest` applies to `(score, string)` pairs:
descending by the tuple, i.e. by score and then by the string in
code-point lexicographic order.  `nlargestOrder p q` means `p` may be
placed before `q`. -/
def nlargestOrder (p q : Rat × String) : Prop :=
  q.1 < p.1 ∨ (p.1 = q.1 ∧ ¬ p.2.data < q.2.data)

instance : DecidableRel nlargestOrder := fun p q => by
  unfold nlargestOrder; infer_instance

/-- `get_close_matches(word, possibilities, n, cutoff)`.  `nlargest` is a
stable descending sort by `(score, string)` followed by truncation;
stability is modelled by insertion sort. -/
def getCloseMatches (word : String) (poss : List String) (n : Nat) (cutoff : Rat) :
    List String :=
  let scored := poss.filterMap (fun x =>
    let r := ratioQ x.data word.data
    if cutoff ≤ r then some (r, x) else none)
  ((List.insertionSort nlargestOrder scored).take n).map (fun p => p.2)

end Difflib

/-! ## Matcher: `finde_passende_fragen_robust` -/

/-- `eintrag.get('question', '')` on a dict's fields. -/
def questionGetD (fs : List (String × Json)) : Json :=
  (lookupField fs "question").getD (.str "")

/-- `eintrag.get('question')` (default `None`) for any value; non-dicts
have no `get` (the call raises). -/
def questionVal : Json → Option Json
  | .obj fs => lookupField fs "question"
  | _ => none

/-- Whether an entry belongs to the exact tier for the normalised snippet
`snorm`: it is a dict and its normalised question equals `snorm`. -/
def isExactHit (snorm : String) : Json → Bool
  | .obj fs => normJson (questionGetD fs) == snorm
  | _ => false

/-- Exact tier: entries whose normalised question equals the normalised
snippet score 100.  Non-dict entries raise `AttributeError` in
`eintrag.get` and are skipped by the per-entry handler. -/
def exactTier (fragen : List Json) (snorm : String) : List (Json × Rat) :=
  fragen.filterMap (fun e =>
    match e with
    | .obj fs => if normJson (questionGetD fs) = snorm then some (e, 100) else none
    | _ => none)

/-- Python `a in b` on strings: contiguous substring containment. -/
def pyIn (a b : String) : Bool := decide (a.data <:+: b.data)

/-- Substring tier: if either normalised text contains the other, the entry
scores `ratio * 80` with `ratio = min(len)/max(len)`, written here as the
single exact fraction `(min*80)/max`; blank normalised questions are
skipped, and non-dict entries are skipped by the per-entry handler. -/
def substrTier (fragen : List Json) (snorm : String) : List (Json × Rat) :=
  fragen.filterMap (fun e =>
    match e with
    | .obj fs =>
        let fnorm := normJson (questionGetD fs)
        if fnorm.isEmpty then none
        else if pyIn snorm fnorm || pyIn fnorm snorm then
          some (e, mkRat (min snorm.length fnorm.length * 80)
                     (max snorm.length fnorm.length))
        else none
    | _ => none)

/-- `[e.get('question', '') for e in self.fragen if e.get('question')]`,
combined with difflib's type requirements on the collected values: a
non-dict entry raises `AttributeError` in the comprehension, and a truthy
non-string question value makes `difflib` raise a `TypeError` on `len`;
either exception aborts the whole fuzzy tier (`none`).  (List-valued
questions, which CPython compares elementwise, are also modelled as
aborting; no claim exercises them.) -/
def fuzzyTexts : List Json → Option (List String)
  | [] => some []
  | e :: rest =>
      match e with
      | .obj fs =>
          match lookupField fs "question" with
          | some v =>
              if v.truthy then
                match v with
                | .str s => (fuzzyTexts rest).map (fun ts => s :: ts)
                | _ => none
              else fuzzyTexts rest
          | none => fuzzyTexts rest
      | _ => none

/-- Fuzzy tier: up to 3 close matches against the raw question texts; each
match maps back to the first entry whose raw `question` equals it, scoring
60 (`None == match` and cross-type comparisons are `False` in Python). -/
def fuzzyTier (fragen : List Json) (suchtext : String) : List (Json × Rat) :=
  match fuzzyTexts fragen with
  | none => []
  | some texte =>
      (Difflib.getCloseMatches suchtext texte 3 (mkRat 3 5)).filterMap (fun m =>
        (fragen.find? (fun e => questionVal e == some (Json.str m))).map (fun e => (e, 60)))

/-- The order of `gefundene.sort(key=lambda x: x[1], reverse=True)`:
descending by score; the sort is stable (modelled by insertion sort). -/
def scoreOrder (p q : Json × Rat) : Prop := q.2 ≤ p.2

instance : DecidableRel scoreOrder := fun p q => by
  unfold scoreOrder; infer_instance

/-- `finde_passende_fragen_robust`: early exits for short or blank snippets,
then the three short-circuited tiers, then stable score-descending sort and
truncation to 5 entries. -/
def finde_passende_fragen_robust (fragen : List Json) (suchtext : String) : List Json :=
  if suchtext.isEmpty ∨ (pyStripStr suchtext).length < 3 then []
  else
    let snorm := normalisiere_text suchtext
    if snorm.isEmpty then []
    else
      let g1 := exactTier fragen snorm
      let gefundene :=
        if g1.isEmpty then
          let g2 := substrTier fragen snorm
          if g2.isEmpty then fuzzyTier fragen suchtext else g2
        else g1
      ((List.insertionSort scoreOrder gefundene).take 5).map (fun p => p.1)

/-! ## Transport client: `sende_nachricht_robust` and `sende_antworten` -/

/-- Outcome of one connection attempt (socket connect + sendall): success,
or failure by timeout, refused connection, or any other socket error. -/
inductive AttemptResult where
  | success : AttemptResult
  | timeout : AttemptResult
  | refused : AttemptResult
  | otherError : AttemptResult
deriving DecidableEq, Repr

/-- Sender-side connection health: `self.connection_alive` and
`self.error_count`. -/
structure Health where
  alive : Bool
  errorCount : Nat
deriving DecidableEq, Repr

/-- The retry loop of `sende_nachricht_robust` over the remaining attempt
indices.  A success sets `connection_alive`, resets `error_count` and
returns immediately; a refused connection clears `connection_alive` and
retries; timeouts and other errors just retry.  Exhaustion increments
`error_count`, clears `connection_alive` and returns `False`.  The third
component counts the connection attempts made; the backoff sleeps between
attempts carry no state and are not modelled. -/
def sendLoop (attempts : Nat → AttemptResult) : List Nat → Health → Bool × Health × Nat
  | [], h => (false, ⟨false, h.errorCount + 1⟩, 0)
  | i :: rest, h =>
      match attempts i with
      | .success => (true, ⟨true, 0⟩, 1)
      | .refused =>
          let r := sendLoop attempts rest ⟨false, h.errorCount⟩
          (r.1, r.2.1, r.2.2 + 1)
      | _ =>
          let r := sendLoop attempts rest h
          (r.1, r.2.1, r.2.2 + 1)

/-- `sende_nachricht_robust(nachricht, max_retries)`: empty messages are
rejected up front before any attempt; otherwise the retry loop runs over
`range(max_retries)`.  The code is identical in `qa_finder.py` and
`qa_finder_gnome.py`. -/
def sende_nachricht_robust (attempts : Nat → AttemptResult) (nachricht : String)
    (maxRetries : Nat) (h : Health) : Bool × Health × Nat :=
  if nachricht.isEmpty then (false, h, 0)
  else sendLoop attempts (List.range maxRetries) h

/-- `", ".join`-style comma joining for Python container `str()`. -/
def joinComma : List String → String
  | [] => ""
  | [s] => s
  | s :: rest => s ++ ", " ++ joinComma rest

mutual

/-- Python `repr()` of a JSON-like value as it appears inside a container:
strings are single-quoted (escape sequences inside the quotes are not
reproduced; no claim depends on them). -/
def pyReprOf : Json → String
  | .str s => "'" ++ s ++ "'"
  | .null => "None"
  | .bool true => "True"
  | .bool false => "False"
  | .num n => toString n
  | .arr xs => "[" ++ joinComma (pyReprList xs) ++ "]"
  | .obj fs => "\x7b" ++ joinComma (pyReprFields fs) ++ "\x7d"

/-- `repr` of the elements of a list value. -/
def pyReprList : List Json → List String
  | [] => []
  | x :: xs => pyReprOf x :: pyReprList xs

/-- `repr` of the bindings of a dict value. -/
def pyReprFields : List (String × Json) → List String
  | [] => []
  | (k, v) :: fs => ("'" ++ k ++ "': " ++ pyReprOf v) :: pyReprFields fs

end

/-- Python `str()` of a JSON-like value, as interpolated by an f-string. -/
def pyStr : Json → String
  | .null => "None"
  | .bool true => "True"
  | .bool false => "False"
  | .num n => toString n
  | .str s => s
  | .arr xs => "[" ++ joinComma (pyReprList xs) ++ "]"
  | .obj fs => "\x7b" ++ joinComma (pyReprFields fs) ++ "\x7d"

/-- The `ANSWER` messages contributed by one found entry in the answer loop
of `sende_antworten`: a present `answer` key contributes one message with
the value's string form; otherwise the first three elements of a present
`answers` value are each sent — slicing a string value yields its first
three characters, while slicing numbers, booleans, `None` or dicts raises
`TypeError` and the per-entry handler skips the entry, as it also does for
the answer-key accesses on a non-dict entry. -/
def answerMsgsOf : Json → List String
  | .obj fs =>
      match lookupField fs "answer" with
      | some v => ["ANSWER:➤ " ++ pyStr v]
      | none =>
          match lookupField fs "answers" with
          | some (.arr xs) => (xs.take 3).map (fun a => "ANSWER:➤ " ++ pyStr a)
          | some (.str s) => (s.data.take 3).map (fun c => "ANSWER:➤ " ++ String.mk [c])
          | some _ => []
          | none => []
  | _ => []

/-- The transport context threaded through a conversation: the attempt
oracle (indexed by call number, then attempt number), the number of
`sende_nachricht_robust` calls made so far, and the connection health. -/
structure SendCtx where
  oracle : Nat → Nat → AttemptResult
  callIdx : Nat
  health : Health

/-- One `sende_nachricht_robust(msg)` call with the default 3 retries,
advancing the context. -/
def callSend (ctx : SendCtx) (msg : String) : Bool × SendCtx :=
  let r := sende_nachricht_robust (ctx.oracle ctx.callIdx) msg 3 ctx.health
  (r.1, ⟨ctx.oracle, ctx.callIdx + 1, r.2.1⟩)

/-- `frage[:80] + "..." if len(frage) > 80 else frage`. -/
def frageKurz (frage : String) : String :=
  if 80 < frage.length then String.mk (frage.data.take 80) ++ "..." else frage

/-- The answer loop of `sende_antworten`: every answer message is attempted
in order; an individual failure only leaves the success count unchanged.
Returns the per-message outcome trace and the final context. -/
def sendAnswers (ctx : SendCtx) : List String → List (String × Bool) × SendCtx
  | [] => ([], ctx)
  | m :: ms =>
      let r := callSend ctx m
      let rest := sendAnswers r.2 ms
      ((m, r.1) :: rest.1, rest.2)

/-- `sende_antworten(gefundene, frage)` of `qa_finder.py`: send `CLEAR`,
abort on failure; send the (possibly truncated) `QUESTION`, abort on
failure; then send every answer message, and return `antwort_count > 0`.
The result carries the trace of attempted messages with their outcomes and
the final context. -/
def sende_antworten (ctx : SendCtx) (gefundene : List Json) (frage : String) :
    Bool × List (String × Bool) × SendCtx :=
  if (callSend ctx "CLEAR").1 = false then
    (false, [("CLEAR", false)], (callSend ctx "CLEAR").2)
  else if (callSend (callSend ctx "CLEAR").2 ("QUESTION:" ++ frageKurz frage)).1
      = false then
    (false, [("CLEAR", true), ("QUESTION:" ++ frageKurz frage, false)],
      (callSend (callSend ctx "CLEAR").2 ("QUESTION:" ++ frageKurz frage)).2)
  else
    (decide (0 < ((sendAnswers
          (callSend (callSend ctx "CLEAR").2 ("QUESTION:" ++ frageKurz frage)).2
          ((gefundene.map answerMsgsOf).flatten)).1).countP (fun p => p.2)),
      ("CLEAR", true) :: ("QUESTION:" ++ frageKurz frage, true)
        :: (sendAnswers
            (callSend (callSend ctx "CLEAR").2 ("QUESTION:" ++ frageKurz frage)).2
            ((gefundene.map answerMsgsOf).flatten)).1,
      (sendAnswers
          (callSend (callSend ctx "CLEAR").2 ("QUESTION:" ++ frageKurz frage)).2
          ((gefundene.map answerMsgsOf).flatten)).2)

/-- `sende_antworten` of `qa_finder_gnome.py`: identical to the
`qa_finder.py` version except that the result of the `QUESTION` send is
discarded — a failed `QUESTION` does not abort the conversation. -/
def sende_antworten_gnome (ctx : SendCtx) (gefundene : List Json) (frage : String) :
    Bool × List (String × Bool) × SendCtx :=
  if (callSend ctx "CLEAR").1 = false then
    (false, [("CLEAR", false)], (callSend ctx "CLEAR").2)
  else
    (decide (0 < ((sendAnswers
          (callSend (callSend ctx "CLEAR").2 ("QUESTION:" ++ frageKurz frage)).2
          ((gefundene.map answerMsgsOf).flatten)).1).countP (fun p => p.2)),
      ("CLEAR", true)
        :: ("QUESTION:" ++ frageKurz frage,
            (callSend (callSend ctx "CLEAR").2 ("QUESTION:" ++ frageKurz frage)).1)
        :: (sendAnswers
            (callSend (callSend ctx "CLEAR").2 ("QUESTION:" ++ frageKurz frage)).2
            ((gefundene.map answerMsgsOf).flatten)).1,
      (sendAnswers
          (callSend (callSend ctx "CLEAR").2 ("QUESTION:" ++ frageKurz frage)).2
          ((gefundene.map answerMsgsOf).flatten)).2)

/-! ## Watch loop: `monitor_clipboard_robust` -/

/-- Observable actions of one iteration of the watch loop. -/
inductive Event where
  | connCheck (ok : Bool) : Event
  | pause (secs : Nat) : Event
  | clipboardRead : Event
  | matchRun : Event
  | sendMsg (msg : String) : Event
  | sleep : Event
deriving DecidableEq, Repr

/-- Loop-carried state: connection health (`connection_alive`,
`error_count`) and `letzter_inhalt`. -/
structure LoopState where
  health : Health
  letzterInhalt : String
deriving DecidableEq, Repr

/-- Per-iteration environment: whether the 10 s periodic connection check
is due and its outcome, whether the shutdown event fires during the 30 s
circuit-breaker pause or the iteration-end sleep, the clipboard read result
(`none` models the clipboard tool being unavailable), and the attempt
oracle for this iteration's sends. -/
structure IterEnv where
  connCheckDue : Bool
  connCheckOk : Bool
  pauseInterrupted : Bool
  clipboard : Option String
  oracle : Nat → Nat → AttemptResult
  sleepInterrupted : Bool

/-- `self.max_errors`. -/
def maxErrors : Nat := 10

/-- Whether the loop continues with a new state or exits. -/
inductive StepOutcome where
  | next (s : LoopState) : StepOutcome
  | exit : StepOutcome

/-- One iteration of the `while` body of `monitor_clipboard_robust`
(`qa_finder.py`): the periodic connection check, the circuit breaker
(pause 30 s, then reset `error_count` and `continue`), the clipboard read
(`None` ends the loop), the unchanged/empty and too-short gates, and
otherwise matching plus either a found-answers conversation or the
"no answer found" conversation, followed by the iteration-end sleep.
Returns the successor behaviour and the ordered event list. -/
def monitorStep (fragen : List Json) (env : IterEnv) (st : LoopState) :
    StepOutcome × List Event :=
  let ev0 : List Event := if env.connCheckDue then [.connCheck env.connCheckOk] else []
  let h0 : Health :=
    ⟨if env.connCheckDue then env.connCheckOk else st.health.alive, st.health.errorCount⟩
  if maxErrors ≤ h0.errorCount then
    if env.pauseInterrupted then (.exit, ev0 ++ [.pause 30])
    else (.next ⟨⟨h0.alive, 0⟩, st.letzterInhalt⟩, ev0 ++ [.pause 30])
  else
    match env.clipboard with
    | none => (.exit, ev0 ++ [.clipboardRead])
    | some inhalt =>
        if inhalt.isEmpty ∨ inhalt = st.letzterInhalt then
          if env.sleepInterrupted then (.exit, ev0 ++ [.clipboardRead, .sleep])
          else (.next ⟨h0, st.letzterInhalt⟩, ev0 ++ [.clipboardRead, .sleep])
        else if (pyStripStr inhalt).length < 8 then
          (.next ⟨h0, inhalt⟩, ev0 ++ [.clipboardRead])
        else
          let gefundene := finde_passende_fragen_robust fragen inhalt
          let ctx : SendCtx := ⟨env.oracle, 0, h0⟩
          let afterSend : Health × List Event :=
            if gefundene.isEmpty then
              let c := callSend ctx "CLEAR"
              if c.1 then
                let q := callSend c.2 "QUESTION:Neue Frage"
                let a := callSend q.2 "ANSWER:❌ Keine Antwort gefunden"
                (a.2.health, [.sendMsg "CLEAR", .sendMsg "QUESTION:Neue Frage",
                  .sendMsg "ANSWER:❌ Keine Antwort gefunden"])
              else (c.2.health, [.sendMsg "CLEAR"])
            else
              let r := sende_antworten ctx gefundene inhalt
              (r.2.2.health, r.2.1.map (fun p => Event.sendMsg p.1))
          let evs := ev0 ++ [.clipboardRead, .matchRun] ++ afterSend.2 ++ [.sleep]
          if env.sleepInterrupted then (.exit, evs)
          else (.next ⟨afterSend.1, inhalt⟩, evs)

end QA

namespace QA

/-! ## Lemmas about normalisation -/

theorem char_toNat_ofNat_valid {n : Nat} (h : n.isValidChar) :
    (Char.ofNat n).toNat = n := by
  unfold Char.ofNat
  rw [dif_pos h]
  rfl

theorem toLower_eq (c : Char) :
    c.toLower = if c.toNat ≥ 65 ∧ c.toNat ≤ 90 then Char.ofNat (c.toNat + 32) else c := rfl

theorem toLower_idem (c : Char) : c.toLower.toLower = c.toLower := by
  rw [toLower_eq c]
  by_cases h : c.toNat ≥ 65 ∧ c.toNat ≤ 90
  · rw [if_pos h, toLower_eq, char_toNat_ofNat_valid (Or.inl (by omega)),
      if_neg (by omega)]
  · rw [if_neg h, toLower_eq, if_neg h]

/-- Every word produced by `splitWsAux` is non-empty and whitespace-free,
provided the running accumulator is whitespace-free. -/
theorem splitWsAux_good : ∀ (l acc : List Char),
    (∀ c ∈ acc, c.isWhitespace = false) →
    ∀ w ∈ splitWsAux l acc, w ≠ [] ∧ ∀ c ∈ w, c.isWhitespace = false
  | [], acc, hacc, w, hw => by
      simp only [splitWsAux] at hw
      split at hw
      · simp at hw
      · next ha =>
          simp only [List.mem_singleton] at hw
          subst hw
          refine ⟨by simpa [List.isEmpty_iff] using ha, ?_⟩
          intro c hc
          exact hacc c (List.mem_reverse.mp hc)
  | x :: xs, acc, hacc, w, hw => by
      simp only [splitWsAux] at hw
      by_cases hx : x.isWhitespace
      · rw [if_pos hx] at hw
        by_cases ha : acc.isEmpty
        · rw [if_pos ha] at hw
          exact splitWsAux_good xs [] (by simp) w hw
        · rw [if_neg ha] at hw
          rcases List.mem_cons.mp hw with h | h
          · subst h
            refine ⟨by simpa [List.isEmpty_iff] using ha, ?_⟩
            intro c hc
            exact hacc c (List.mem_reverse.mp hc)
          · exact splitWsAux_good xs [] (by simp) w h
      · rw [if_neg hx] at hw
        refine splitWsAux_good xs (x :: acc) ?_ w hw
        intro c hc
        rcases List.mem_cons.mp hc with h | h
        · subst h; simpa using hx
        · exact hacc c h

/-- Every character of every word of `splitWsAux l acc` comes from `l` or
from the accumulator. -/
theorem splitWsAux_subset : ∀ (l acc : List Char), ∀ w ∈ splitWsAux l acc,
    ∀ c ∈ w, c ∈ l ∨ c ∈ acc
  | [], acc, w, hw, c, hc => by
      simp only [splitWsAux] at hw
      split at hw
      · simp at hw
      · simp only [List.mem_singleton] at hw
        subst hw
        exact Or.inr (List.mem_reverse.mp hc)
  | x :: xs, acc, w, hw, c, hc => by
      simp only [splitWsAux] at hw
      by_cases hx : x.isWhitespace
      · rw [if_pos hx] at hw
        by_cases ha : acc.isEmpty
        · rw [if_pos ha] at hw
          rcases splitWsAux_subset xs [] w hw c hc with h | h
          · exact Or.inl (List.mem_cons_of_mem _ h)
          · simp at h
        · rw [if_neg ha] at hw
          rcases List.mem_cons.mp hw with h | h
          · subst h
            exact Or.inr (List.mem_reverse.mp hc)
          · rcases splitWsAux_subset xs [] w h c hc with h' | h'
            · exact Or.inl (List.mem_cons_of_mem _ h')
            · simp at h'
      · rw [if_neg hx] at hw
        rcases splitWsAux_subset xs (x :: acc) w hw c hc with h | h
        · exact Or.inl (List.mem_cons_of_mem _ h)
        · rcases List.mem_cons.mp h with h' | h'
          · exact Or.inl (h' ▸ List.mem_cons_self _ _)
          · exact Or.inr h'

/-- Scanning a whitespace-free prefix just accumulates it (reversed). -/
theorem splitWsAux_append_nonws : ∀ (w l acc : List Char),
    (∀ c ∈ w, c.isWhitespace = false) →
    splitWsAux (w ++ l) acc = splitWsAux l (w.reverse ++ acc)
  | [], l, acc, _ => by simp
  | x :: xs, l, acc, hw => by
      have hx : x.isWhitespace = false := hw x (List.mem_cons_self _ _)
      simp only [List.cons_append, splitWsAux, hx]
      rw [if_neg (by simp [hx])]
      show splitWsAux (xs ++ l) (x :: acc) = _
      rw [splitWsAux_append_nonws xs l (x :: acc)
        (fun c hc => hw c (List.mem_cons_of_mem _ hc))]
      simp

theorem joinSp_cons_cons (w w' : List Char) (ws : List (List Char)) :
    joinSp (w :: w' :: ws) = w ++ ' ' :: joinSp (w' :: ws) := rfl

/-- Splitting the space-joined list of good words recovers the words. -/
theorem splitWs_joinSp : ∀ ws : List (List Char),
    (∀ w ∈ ws, w ≠ [] ∧ ∀ c ∈ w, c.isWhitespace = false) →
    splitWs (joinSp ws) = ws
  | [], _ => rfl
  | [w], h => by
      obtain ⟨hne, hnw⟩ := h w (List.mem_singleton_self w)
      show splitWsAux (joinSp [w]) [] = [w]
      have : joinSp [w] = w ++ [] := by simp [joinSp]
      rw [this, splitWsAux_append_nonws w [] [] hnw]
      simp [splitWsAux, hne]
  | w :: w' :: ws, h => by
      obtain ⟨hne, hnw⟩ := h w (List.mem_cons_self _ _)
      have hrest := fun x hx => h x (List.mem_cons_of_mem _ hx)
      have ih := splitWs_joinSp (w' :: ws) hrest
      show splitWsAux (joinSp (w :: w' :: ws)) [] = w :: w' :: ws
      rw [joinSp_cons_cons, splitWsAux_append_nonws w (' ' :: joinSp (w' :: ws)) [] hnw,
        List.append_nil]
      have hsp : (' ' : Char).isWhitespace = true := by decide
      simp only [splitWsAux, hsp, if_true]
      rw [if_neg (by simp [List.isEmpty_iff, List.reverse_eq_nil_iff, hne]),
        List.reverse_reverse]
      exact congrArg (w :: ·) ih

/-- Every character of a space-join is a space or a word character. -/
theorem mem_joinSp : ∀ (ws : List (List Char)) (c : Char), c ∈ joinSp ws →
    c = ' ' ∨ ∃ w ∈ ws, c ∈ w
  | [], c, h => by simp [joinSp] at h
  | [w], c, h => Or.inr ⟨w, by simp, h⟩
  | w :: w' :: ws, c, h => by
      rw [joinSp_cons_cons] at h
      rcases List.mem_append.mp h with h | h
      · exact Or.inr ⟨w, by simp, h⟩
      · rcases List.mem_cons.mp h with h | h
        · exact Or.inl h
        · rcases mem_joinSp (w' :: ws) c h with h | ⟨u, hu, hc⟩
          · exact Or.inl h
          · exact Or.inr ⟨u, List.mem_cons_of_mem _ hu, hc⟩

theorem dropWhile_eq_self_of_head (p : Char → Bool) : ∀ (l : List Char),
    (∀ c ∈ l.head?, p c = false) → l.dropWhile p = l
  | [], _ => rfl
  | c :: cs, h => by
      have hc : p c = false := h c (by simp)
      simp [List.dropWhile_cons, hc]

theorem joinSp_ne_nil : ∀ (w : List Char) (ws : List (List Char)), w ≠ [] →
    joinSp (w :: ws) ≠ []
  | w, [], hw => hw
  | w, w' :: ws, hw => by
      rw [joinSp_cons_cons]
      simp [hw]

theorem head?_joinSp : ∀ (w : List Char) (ws : List (List Char)), w ≠ [] →
    (joinSp (w :: ws)).head? = w.head?
  | w, [], _ => rfl
  | c :: w, w' :: ws, _ => by rw [joinSp_cons_cons]; rfl
  | [], w' :: ws, hw => absurd rfl hw

/-- The last character of a space-join of good words is a word character. -/
theorem getLast?_joinSp_nonws : ∀ (ws : List (List Char)),
    (∀ w ∈ ws, w ≠ [] ∧ ∀ c ∈ w, c.isWhitespace = false) →
    ∀ c, (joinSp ws).getLast? = some c → c.isWhitespace = false
  | [], _, c, hc => by simp [joinSp] at hc
  | [w], h, c, hc => by
      obtain ⟨_, hnw⟩ := h w (List.mem_singleton_self w)
      exact hnw c (List.mem_of_getLast?_eq_some hc)
  | w :: w' :: ws, h, c, hc => by
      have hrest := fun x hx => h x (List.mem_cons_of_mem _ hx)
      obtain ⟨hne', _⟩ := h w' (by simp)
      have hjoin : joinSp (w' :: ws) ≠ [] := joinSp_ne_nil w' ws hne'
      obtain ⟨d, hd⟩ := Option.ne_none_iff_exists'.mp
        (fun hnone => hjoin (List.getLast?_eq_none_iff.mp hnone))
      rw [joinSp_cons_cons, List.getLast?_append] at hc
      have h2 : (' ' :: joinSp (w' :: ws)).getLast? = some d := by
        rw [show (' ' :: joinSp (w' :: ws)) = [' '] ++ joinSp (w' :: ws) from rfl,
          List.getLast?_append, hd]
        rfl
      rw [h2] at hc
      simp only [Option.or_some] at hc
      cases hc
      exact getLast?_joinSp_nonws (w' :: ws) hrest c hd

/-- Stripping a space-join of good words changes nothing. -/
theorem pyStrip_joinSp (ws : List (List Char))
    (h : ∀ w ∈ ws, w ≠ [] ∧ ∀ c ∈ w, c.isWhitespace = false) :
    pyStrip (joinSp ws) = joinSp ws := by
  cases ws with
  | nil => rfl
  | cons w rest =>
      obtain ⟨hne, hnw⟩ := h w (List.mem_cons_self _ _)
      unfold pyStrip
      have h1 : (joinSp (w :: rest)).dropWhile Char.isWhitespace = joinSp (w :: rest) := by
        apply dropWhile_eq_self_of_head
        intro c hc
        rw [head?_joinSp w rest hne] at hc
        exact hnw c (List.mem_of_mem_head? hc)
      rw [h1]
      have h2 : (joinSp (w :: rest)).reverse.dropWhile Char.isWhitespace
          = (joinSp (w :: rest)).reverse := by
        apply dropWhile_eq_self_of_head
        intro c hc
        rw [List.head?_reverse] at hc
        exact getLast?_joinSp_nonws (w :: rest) h c hc
      rw [h2, List.reverse_reverse]

theorem mem_of_pyStrip {c : Char} {l : List Char} (h : c ∈ pyStrip l) : c ∈ l := by
  unfold pyStrip at h
  rw [List.mem_reverse] at h
  have h1 := (List.dropWhile_sublist (l := (l.dropWhile Char.isWhitespace).reverse)
    (p := Char.isWhitespace)).mem h
  rw [List.mem_reverse] at h1
  exact (List.dropWhile_sublist (l := l) (p := Char.isWhitespace)).mem h1

theorem map_toLower_fixed {l : List Char} (h : ∀ c ∈ l, Char.toLower c = c) :
    l.map Char.toLower = l := by
  induction l with
  | nil => rfl
  | cons c cs ih =>
      simp only [List.map_cons, h c (List.mem_cons_self _ _),
        ih (fun x hx => h x (List.mem_cons_of_mem _ hx))]

/-- Idempotence of the normalisation at the character-list level. -/
theorem normChars_idem (l : List Char) : normChars (normChars l) = normChars l := by
  conv_lhs => rw [normChars, normChars]
  conv_rhs => rw [normChars]
  have hgood : ∀ w ∈ splitWs (pyStrip (l.map Char.toLower)),
      w ≠ [] ∧ ∀ c ∈ w, c.isWhitespace = false :=
    splitWsAux_good _ [] (by simp)
  have hfix : ∀ c ∈ joinSp (splitWs (pyStrip (l.map Char.toLower))), Char.toLower c = c := by
    intro c hc
    rcases mem_joinSp _ c hc with h | ⟨w, hw, hcw⟩
    · subst h; decide
    · have h1 : c ∈ pyStrip (l.map Char.toLower) := by
        rcases splitWsAux_subset _ [] w hw c hcw with h | h
        · exact h
        · simp at h
      obtain ⟨c', _, rfl⟩ := List.mem_map.mp (mem_of_pyStrip h1)
      exact toLower_idem c'
  rw [map_toLower_fixed hfix, pyStrip_joinSp _ hgood, splitWs_joinSp _ hgood]

/-! ## Question store theorems (C1, C5) -/

/-- C1 counterexample: `lade_fragen_sicher` stores the *whole* decoded list
(`self.fragen = data`), so a load that succeeds can hold an entry that
failed validation — here the non-dict entry `null` is stored although
`validiere_frage` rejects it. -/
theorem load_keeps_invalid_entry :
    lade_fragen_sicher
        (.parsed (.arr [.obj [("question", .str "q1"), ("answer", .str "a")], .null]))
      = some [.obj [("question", .str "q1"), ("answer", .str "a")], .null]
    ∧ validiere_frage .null = false := by
  constructor
  · rfl
  · rfl

/-- C1 amended: a successful load stores exactly the decoded list — entries
that fail validation are only excluded from the `valid_questions` count
(and logged), not from the stored corpus — and at least one stored entry
passed validation. -/
theorem load_success_stores_whole_list (src : FileSource) (data : List Json)
    (h : lade_fragen_sicher src = some data) :
    src = .parsed (.arr data) ∧ data ≠ [] ∧ ∃ e ∈ data, validiere_frage e = true := by
  cases src with
  | missing => simp [lade_fragen_sicher] at h
  | empty => simp [lade_fragen_sicher] at h
  | unparseable => simp [lade_fragen_sicher] at h
  | parsed j =>
      cases j with
      | arr l =>
          simp only [lade_fragen_sicher] at h
          by_cases he : l.isEmpty
          · rw [if_pos he] at h; exact absurd h (by simp)
          · rw [if_neg he] at h
            by_cases hc : l.countP (fun e => validiere_frage e) = 0
            · rw [if_pos hc] at h; exact absurd h (by simp)
            · rw [if_neg hc] at h
              obtain rfl : l = data := by simpa using h
              refine ⟨rfl, by simpa [List.isEmpty_iff] using he, ?_⟩
              have := Nat.pos_of_ne_zero hc
              rw [List.countP_pos_iff] at this
              exact this
      | null => simp [lade_fragen_sicher] at h
      | bool b => simp [lade_fragen_sicher] at h
      | num n => simp [lade_fragen_sicher] at h
      | str s => simp [lade_fragen_sicher] at h
      | obj fs => simp [lade_fragen_sicher] at h

/-- Witness for the amended C1 at a concrete corpus. -/
theorem load_success_stores_whole_list_witness :
    (FileSource.parsed (.arr [.obj [("question", .str "q1"), ("answer", .str "a")], .null]))
        = .parsed (.arr [.obj [("question", .str "q1"), ("answer", .str "a")], .null])
      ∧ [Json.obj [("question", .str "q1"), ("answer", .str "a")], .null] ≠ []
      ∧ ∃ e ∈ [Json.obj [("question", .str "q1"), ("answer", .str "a")], .null],
          validiere_frage e = true :=
  load_success_stores_whole_list
    (.parsed (.arr [.obj [("question", .str "q1"), ("answer", .str "a")], .null]))
    [.obj [("question", .str "q1"), ("answer", .str "a")], .null] (by rfl)

/-- C5: `lade_fragen_sicher` fails exactly when the source is missing,
empty, unparseable, does not decode to a non-empty list, or yields zero
valid entries — i.e. it succeeds exactly on a parsed non-empty list with at
least one valid entry.  Scenario E: a corpus whose only entry is
`{"question": ""}` fails the load, while adding one valid entry makes it
succeed (storing both entries). -/
theorem load_failure_iff :
    (∀ src : FileSource, lade_fragen_sicher src = none ↔
      ¬ ∃ data : List Json, src = .parsed (.arr data) ∧ data ≠ []
          ∧ ∃ e ∈ data, validiere_frage e = true)
    ∧ lade_fragen_sicher (.parsed (.arr [.obj [("question", .str "")]])) = none
    ∧ lade_fragen_sicher (.parsed (.arr [.obj [("question", .str "")],
          .obj [("question", .str "q1"), ("answer", .str "a")]]))
        = some [.obj [("question", .str "")],
            .obj [("question", .str "q1"), ("answer", .str "a")]] := by
  refine ⟨fun src => ?_, by rfl, by rfl⟩
  constructor
  · intro hn ⟨data, hsrc, hne, e, he, hval⟩
    subst hsrc
    simp only [lade_fragen_sicher] at hn
    rw [if_neg (by simpa [List.isEmpty_iff] using hne),
      if_neg (by
        intro hc
        have : 0 < data.countP (fun e => validiere_frage e) :=
          List.countP_pos_iff.mpr ⟨e, he, hval⟩
        omega)] at hn
    exact absurd hn (by simp)
  · intro hno
    cases hres : lade_fragen_sicher src with
    | none => rfl
    | some data =>
        exact absurd (⟨data, load_success_stores_whole_list src data hres⟩) hno

/-! ## Transport client theorems (C7, C10) -/

theorem sendLoop_success {a : Nat → AttemptResult} : ∀ {l : List Nat} {h : Health},
    (∃ i ∈ l, a i = .success) →
    (sendLoop a l h).1 = true ∧ (sendLoop a l h).2.1 = ⟨true, 0⟩ := by
  intro l
  induction l with
  | nil => intro h hx; simp at hx
  | cons i rest ih =>
      intro h hx
      by_cases hi : a i = .success
      · simp [sendLoop, hi]
      · have hx' : ∃ j ∈ rest, a j = .success := by
          rcases hx with ⟨j, hj, hja⟩
          rcases List.mem_cons.mp hj with rfl | hjr
          · exact absurd hja hi
          · exact ⟨j, hjr, hja⟩
        cases ha : a i with
        | success => exact absurd ha hi
        | refused => simpa [sendLoop, ha] using ih hx'
        | timeout => simpa [sendLoop, ha] using ih hx'
        | otherError => simpa [sendLoop, ha] using ih hx'

theorem sendLoop_failure {a : Nat → AttemptResult} : ∀ {l : List Nat} {h : Health},
    (∀ i ∈ l, a i ≠ .success) →
    sendLoop a l h = (false, ⟨false, h.errorCount + 1⟩, l.length) := by
  intro l
  induction l with
  | nil => intro h _; rfl
  | cons i rest ih =>
      intro h hx
      have hi : a i ≠ .success := hx i (List.mem_cons_self _ _)
      have hrest : ∀ j ∈ rest, a j ≠ .success :=
        fun j hj => hx j (List.mem_cons_of_mem _ hj)
      cases ha : a i with
      | success => exact absurd ha hi
      | refused => simp [sendLoop, ha, ih hrest]
      | timeout => simp [sendLoop, ha, ih hrest]
      | otherError => simp [sendLoop, ha, ih hrest]

/-- C7: `sende_nachricht_robust` is a total function (the embedding of a
routine that never raises); for a non-empty message, if some attempt within
`max_retries` succeeds it returns `True` having set `connection_alive` and
reset `error_count` to 0, and if every attempt fails it returns `False`
having cleared `connection_alive` and incremented `error_count` by exactly
one, after making all `max_retries` attempts. -/
theorem send_health_transitions (a : Nat → AttemptResult) (msg : String)
    (maxRetries : Nat) (h : Health) (hne : msg.isEmpty = false) :
    ((∃ i, i < maxRetries ∧ a i = .success) →
      (sende_nachricht_robust a msg maxRetries h).1 = true
        ∧ (sende_nachricht_robust a msg maxRetries h).2.1 = ⟨true, 0⟩)
    ∧ ((∀ i, i < maxRetries → a i ≠ .success) →
      sende_nachricht_robust a msg maxRetries h
        = (false, ⟨false, h.errorCount + 1⟩, maxRetries)) := by
  unfold sende_nachricht_robust
  rw [if_neg (by simp [hne])]
  constructor
  · intro ⟨i, hi, hs⟩
    exact sendLoop_success ⟨i, List.mem_range.mpr hi, hs⟩
  · intro hall
    rw [sendLoop_failure (fun i hi => hall i (List.mem_range.mp hi))]
    simp

/-- Witness for C7 at a concrete oracle, message and health. -/
theorem send_health_transitions_witness :
    ((∃ i, i < 3 ∧ (fun k => if k = 1 then AttemptResult.success else .timeout) i
        = .success) →
      (sende_nachricht_robust (fun k => if k = 1 then .success else .timeout)
          "PING" 3 ⟨false, 5⟩).1 = true
        ∧ (sende_nachricht_robust (fun k => if k = 1 then .success else .timeout)
            "PING" 3 ⟨false, 5⟩).2.1 = ⟨true, 0⟩)
    ∧ ((∀ i, i < 3 → (fun k => if k = 1 then AttemptResult.success else .timeout) i
        ≠ .success) →
      sende_nachricht_robust (fun k => if k = 1 then .success else .timeout)
          "PING" 3 ⟨false, 5⟩
        = (false, ⟨false, 5 + 1⟩, 3)) :=
  send_health_transitions (fun k => if k = 1 then .success else .timeout)
    "PING" 3 ⟨false, 5⟩ (by rfl)

/-- C10: `sende_nachricht_robust` with an empty message (identical code in
`qa_finder.py` and `qa_finder_gnome.py`) returns `False` immediately: zero
connection attempts are made and the connection health is returned
unchanged — `error_count` is not incremented and `connection_alive` keeps
its prior value. -/
theorem send_empty_message_noop (a : Nat → AttemptResult) (maxRetries : Nat)
    (h : Health) :
    sende_nachricht_robust a "" maxRetries h = (false, h, 0) := rfl

/-! ## Conversation theorems (C3) -/

theorem answerMsgsOf_shape (e : Json) : ∀ m ∈ answerMsgsOf e, ∃ x, m = "ANSWER:➤ " ++ x := by
  unfold answerMsgsOf
  split
  · split
    · intro m hm
      simp only [List.mem_singleton] at hm
      exact ⟨_, hm⟩
    · split
      · intro m hm
        simp only [List.mem_map] at hm
        obtain ⟨a, _, rfl⟩ := hm
        exact ⟨_, rfl⟩
      · intro m hm
        simp only [List.mem_map] at hm
        obtain ⟨c, _, rfl⟩ := hm
        exact ⟨_, rfl⟩
      · simp
      · simp
  · simp

theorem sendAnswers_fst : ∀ (ms : List String) (c : SendCtx),
    ((sendAnswers c ms).1).map Prod.fst = ms
  | [], _ => rfl
  | m :: ms, c => by
      simp only [sendAnswers, List.map_cons]
      exact congrArg (m :: ·) (sendAnswers_fst ms _)

theorem clear_ne_answer (x : String) : "CLEAR" ≠ "ANSWER:➤ " ++ x := by
  intro h
  have h2 := congrArg (fun s : String => s.data.head?) h
  simp only [String.data_append] at h2
  simp at h2

theorem question_ne_answer (s x : String) : "QUESTION:" ++ s ≠ "ANSWER:➤ " ++ x := by
  intro h
  have h2 := congrArg (fun s : String => s.data.head?) h
  simp only [String.data_append] at h2
  simp at h2

/-- C3 counterexample: in `qa_finder_gnome.py` the result of the `QUESTION`
send is discarded, so with a transport where exactly the second
`sende_nachricht_robust` call fails, the `QUESTION` message fails but the
conversation is not aborted — the `ANSWER` message is still attempted, it
succeeds, and the call returns `True`. -/
theorem gnome_question_failure_not_aborting :
    (sende_antworten_gnome
        ⟨fun k _ => if k = 1 then .refused else .success, 0, ⟨false, 0⟩⟩
        [.obj [("question", .str "q"), ("answer", .str "a")]] "f").1 = true
    ∧ (sende_antworten_gnome
        ⟨fun k _ => if k = 1 then .refused else .success, 0, ⟨false, 0⟩⟩
        [.obj [("question", .str "q"), ("answer", .str "a")]] "f").2.1
      = [("CLEAR", true), ("QUESTION:f", false), ("ANSWER:➤ a", true)] := by
  constructor
  · rfl
  · rfl

/-- C3 amended: in both variants the conversation returns `True` iff at
least one `ANSWER` message was delivered successfully, and a failed `CLEAR`
aborts the conversation early; a failed `QUESTION` aborts it early only in
`qa_finder.py` — `qa_finder_gnome.py` ignores the `QUESTION` result and
carries on with the `ANSWER` messages. -/
theorem send_conversation_semantics (c : SendCtx) (g : List Json) (f : String) :
    ((callSend c "CLEAR").1 = false →
        sende_antworten c g f = (false, [("CLEAR", false)], (callSend c "CLEAR").2)
      ∧ sende_antworten_gnome c g f = (false, [("CLEAR", false)], (callSend c "CLEAR").2))
    ∧ ((callSend c "CLEAR").1 = true →
        (callSend (callSend c "CLEAR").2 ("QUESTION:" ++ frageKurz f)).1 = false →
        (sende_antworten c g f).1 = false
        ∧ (sende_antworten c g f).2.1
            = [("CLEAR", true), ("QUESTION:" ++ frageKurz f, false)])
    ∧ ((sende_antworten c g f).1 = true ↔
        ∃ p ∈ (sende_antworten c g f).2.1, (∃ x, p.1 = "ANSWER:➤ " ++ x) ∧ p.2 = true)
    ∧ ((sende_antworten_gnome c g f).1 = true ↔
        ∃ p ∈ (sende_antworten_gnome c g f).2.1,
          (∃ x, p.1 = "ANSWER:➤ " ++ x) ∧ p.2 = true) := by
  have answer_trace : ∀ p ∈ (sendAnswers (callSend (callSend c "CLEAR").2
      ("QUESTION:" ++ frageKurz f)).2 ((g.map answerMsgsOf).flatten)).1,
      (∃ x, p.1 = "ANSWER:➤ " ++ x) := by
    intro p hp
    have h1 : p.1 ∈ (g.map answerMsgsOf).flatten := by
      rw [← sendAnswers_fst ((g.map answerMsgsOf).flatten)
        (callSend (callSend c "CLEAR").2 ("QUESTION:" ++ frageKurz f)).2]
      exact List.mem_map_of_mem Prod.fst hp
    obtain ⟨ms, hms, hpm⟩ := List.mem_flatten.mp h1
    obtain ⟨e, _, rfl⟩ := List.mem_map.mp hms
    exact answerMsgsOf_shape e p.1 hpm
  have gnome_iff : (callSend c "CLEAR").1 = true →
      ((sende_antworten_gnome c g f).1 = true ↔
        ∃ p ∈ (sende_antworten_gnome c g f).2.1,
          (∃ x, p.1 = "ANSWER:➤ " ++ x) ∧ p.2 = true) := by
    intro hc
    have hcne : ¬ (callSend c "CLEAR").1 = false := by simp [hc]
    unfold sende_antworten_gnome
    rw [if_neg hcne]
    simp only [decide_eq_true_eq, List.countP_pos_iff]
    constructor
    · intro ⟨p, hp, hp2⟩
      exact ⟨p, by simp [hp], answer_trace p hp, hp2⟩
    · intro ⟨p, hp, hshape, hp2⟩
      rcases List.mem_cons.mp hp with rfl | hp'
      · obtain ⟨x, hx⟩ := hshape
        exact absurd hx (clear_ne_answer x)
      · rcases List.mem_cons.mp hp' with rfl | hp''
        · obtain ⟨x, hx⟩ := hshape
          exact absurd hx (question_ne_answer (frageKurz f) x)
        · exact ⟨p, hp'', hp2⟩
  by_cases hc : (callSend c "CLEAR").1 = true
  · have hcne : ¬ (callSend c "CLEAR").1 = false := by simp [hc]
    by_cases hq : (callSend (callSend c "CLEAR").2 ("QUESTION:" ++ frageKurz f)).1 = true
    · have hqne : ¬ (callSend (callSend c "CLEAR").2
          ("QUESTION:" ++ frageKurz f)).1 = false := by simp [hq]
      refine ⟨fun h => absurd hc (by simp [h]), fun _ h => absurd hq (by simp [h]),
        ?_, gnome_iff hc⟩
      unfold sende_antworten
      rw [if_neg hcne, if_neg hqne]
      simp only [decide_eq_true_eq, List.countP_pos_iff]
      constructor
      · intro ⟨p, hp, hp2⟩
        exact ⟨p, by simp [hp], answer_trace p hp, hp2⟩
      · intro ⟨p, hp, hshape, hp2⟩
        rcases List.mem_cons.mp hp with rfl | hp'
        · obtain ⟨x, hx⟩ := hshape
          exact absurd hx (clear_ne_answer x)
        · rcases List.mem_cons.mp hp' with rfl | hp''
          · obtain ⟨x, hx⟩ := hshape
            exact absurd hx (question_ne_answer (frageKurz f) x)
          · exact ⟨p, hp'', hp2⟩
    · have hq' : (callSend (callSend c "CLEAR").2
          ("QUESTION:" ++ frageKurz f)).1 = false := by simpa using hq
      refine ⟨fun h => absurd hc (by simp [h]), fun _ _ => ?_, ?_, gnome_iff hc⟩
      · unfold sende_antworten
        rw [if_neg hcne, if_pos hq']
        exact ⟨rfl, rfl⟩
      · unfold sende_antworten
        rw [if_neg hcne, if_pos hq']
        constructor
        · intro h; simp at h
        · intro ⟨p, hp, hshape, hp2⟩
          rcases List.mem_cons.mp hp with rfl | hp'
          · obtain ⟨x, hx⟩ := hshape
            exact absurd hx (clear_ne_answer x)
          · rcases List.mem_cons.mp hp' with rfl | hp''
            · simp at hp2
            · simp at hp''
  · have hc' : (callSend c "CLEAR").1 = false := by simpa using hc
    refine ⟨fun _ => ?_, fun h => absurd h (by simp [hc']), ?_, ?_⟩
    · constructor
      · unfold sende_antworten
        rw [if_pos hc']
      · unfold sende_antworten_gnome
        rw [if_pos hc']
    · unfold sende_antworten
      rw [if_pos hc']
      constructor
      · intro h; simp at h
      · intro ⟨p, hp, hshape, hp2⟩
        rcases List.mem_cons.mp hp with rfl | hp'
        · simp at hp2
        · simp at hp'
    · unfold sende_antworten_gnome
      rw [if_pos hc']
      constructor
      · intro h; simp at h
      · intro ⟨p, hp, hshape, hp2⟩
        rcases List.mem_cons.mp hp with rfl | hp'
        · simp at hp2
        · simp at hp'

/-! ## Matcher lemmas (C2, C4, C6) -/

theorem toLower_isWhitespace (c : Char) :
    (Char.toLower c).isWhitespace = c.isWhitespace := by
  rw [toLower_eq]
  by_cases h : c.toNat ≥ 65 ∧ c.toNat ≤ 90
  · obtain ⟨h65, h90⟩ := h
    rw [if_pos ⟨h65, h90⟩]
    have ht : (Char.ofNat (c.toNat + 32)).toNat = c.toNat + 32 :=
      char_toNat_ofNat_valid (Or.inl (by omega))
    have hne : ∀ d : Char, d.toNat ≠ c.toNat + 32 → Char.ofNat (c.toNat + 32) ≠ d := by
      intro d hd he
      exact hd (by rw [← he, ht])
    have hne' : ∀ d : Char, d.toNat ≠ c.toNat → c ≠ d := by
      intro d hd he
      exact hd (he ▸ rfl)
    have h1 : (Char.ofNat (c.toNat + 32)).isWhitespace = false := by
      unfold Char.isWhitespace
      simp only [Bool.or_eq_false_iff, decide_eq_false_iff_not]
      refine ⟨⟨⟨?_, ?_⟩, ?_⟩, ?_⟩
      · exact hne ' ' (by rw [show (' ' : Char).toNat = 32 from rfl]; omega)
      · exact hne '\t' (by rw [show ('\t' : Char).toNat = 9 from rfl]; omega)
      · exact hne '\r' (by rw [show ('\r' : Char).toNat = 13 from rfl]; omega)
      · exact hne '\n' (by rw [show ('\n' : Char).toNat = 10 from rfl]; omega)
    have h2 : c.isWhitespace = false := by
      unfold Char.isWhitespace
      simp only [Bool.or_eq_false_iff, decide_eq_false_iff_not]
      refine ⟨⟨⟨?_, ?_⟩, ?_⟩, ?_⟩
      · exact hne' ' ' (by rw [show (' ' : Char).toNat = 32 from rfl]; omega)
      · exact hne' '\t' (by rw [show ('\t' : Char).toNat = 9 from rfl]; omega)
      · exact hne' '\r' (by rw [show ('\r' : Char).toNat = 13 from rfl]; omega)
      · exact hne' '\n' (by rw [show ('\n' : Char).toNat = 10 from rfl]; omega)
    rw [h1, h2]
  · rw [if_neg h]

/-- `strip` commutes with `lower` because lowering preserves the
whitespace class. -/
theorem pyStrip_map_toLower (l : List Char) :
    pyStrip (l.map Char.toLower) = (pyStrip l).map Char.toLower := by
  have hws : (Char.isWhitespace ∘ Char.toLower) = Char.isWhitespace := by
    funext c
    exact toLower_isWhitespace c
  unfold pyStrip
  rw [List.dropWhile_map, hws, ← List.map_reverse, List.dropWhile_map, hws,
    ← List.map_reverse]

/-- A non-empty stripped list contains a non-whitespace character. -/
theorem pyStrip_has_nonws {l : List Char} (h : pyStrip l ≠ []) :
    ∃ c ∈ pyStrip l, c.isWhitespace = false := by
  unfold pyStrip at h ⊢
  have h2 : (l.dropWhile Char.isWhitespace).reverse.dropWhile Char.isWhitespace ≠ [] := by
    intro hx
    exact h (by rw [hx]; rfl)
  refine ⟨((l.dropWhile Char.isWhitespace).reverse.dropWhile Char.isWhitespace).head h2,
    ?_, ?_⟩
  · rw [List.mem_reverse]
    exact List.head_mem h2
  · exact List.head_dropWhile_not Char.isWhitespace _ h2

/-- A list containing a non-whitespace character splits into at least one
word. -/
theorem splitWsAux_ne_nil {c : Char} (hw : c.isWhitespace = false) :
    ∀ (l acc : List Char), (c ∈ l ∨ c ∈ acc) → splitWsAux l acc ≠ []
  | [], acc, hmem => by
      rcases hmem with h | h
      · simp at h
      · have : acc.isEmpty = false := by
          cases acc with
          | nil => simp at h
          | cons a t => rfl
        simp [splitWsAux, this]
  | x :: xs, acc, hmem => by
      simp only [splitWsAux]
      by_cases hx : x.isWhitespace
      · rw [if_pos hx]
        have hcx : c ≠ x := fun he => by rw [he] at hw; rw [hw] at hx; exact absurd hx (by simp)
        by_cases ha : acc.isEmpty
        · rw [if_pos ha]
          refine splitWsAux_ne_nil hw xs [] (Or.inl ?_)
          rcases hmem with h | h
          · rcases List.mem_cons.mp h with he | h'
            · exact absurd he hcx
            · exact h'
          · rw [List.isEmpty_iff.mp ha] at h
            simp at h
        · rw [if_neg ha]
          simp
      · rw [if_neg hx]
        refine splitWsAux_ne_nil hw xs (x :: acc) ?_
        rcases hmem with h | h
        · rcases List.mem_cons.mp h with he | h'
          · exact Or.inr (he ▸ List.mem_cons_self _ _)
          · exact Or.inl h'
        · exact Or.inr (List.mem_cons_of_mem _ h)

/-- A snippet with at least 3 characters after stripping has a non-empty
normalisation (the second early exit of the matcher cannot fire). -/
theorem normalisiere_ne_empty {s : String} (h3 : 3 ≤ (pyStripStr s).length) :
    (normalisiere_text s).isEmpty = false := by
  have hlen : (pyStrip s.data).length ≠ 0 := by
    have : (pyStripStr s).length = (pyStrip s.data).length := rfl
    omega
  have hne : pyStrip s.data ≠ [] := fun hx => hlen (by rw [hx]; rfl)
  obtain ⟨c, hc, hcw⟩ := pyStrip_has_nonws hne
  have hmem : Char.toLower c ∈ pyStrip (s.data.map Char.toLower) := by
    rw [pyStrip_map_toLower]
    exact List.mem_map_of_mem Char.toLower hc
  have hw' : (Char.toLower c).isWhitespace = false := by
    rw [toLower_isWhitespace]; exact hcw
  have hsplit : splitWs (pyStrip (s.data.map Char.toLower)) ≠ [] :=
    splitWsAux_ne_nil hw' _ [] (Or.inl hmem)
  have hgood := splitWsAux_good (pyStrip (s.data.map Char.toLower)) [] (by simp)
  cases hws : splitWs (pyStrip (s.data.map Char.toLower)) with
  | nil => exact absurd hws hsplit
  | cons w ws =>
      have hmemw : w ∈ splitWsAux (pyStrip (s.data.map Char.toLower)) [] := by
        have heq : splitWsAux (pyStrip (s.data.map Char.toLower)) []
            = splitWs (pyStrip (s.data.map Char.toLower)) := rfl
        rw [heq, hws]
        exact List.mem_cons_self _ _
      obtain ⟨hwne, _⟩ := hgood w hmemw
      have hnc : normChars s.data ≠ [] := by
        unfold normChars
        rw [hws]
        exact joinSp_ne_nil w ws hwne
      rw [Bool.eq_false_iff]
      intro hemp
      have heq : normalisiere_text s = "" := (String.isEmpty_iff _).mp hemp
      exact hnc (congrArg String.data heq)

/-- The exact tier is the exact-hit filter of the corpus, each entry paired
with the constant score 100. -/
theorem exactTier_eq_filter (fragen : List Json) (snorm : String) :
    exactTier fragen snorm
      = (fragen.filter (isExactHit snorm)).map (fun e => (e, (100 : Rat))) := by
  induction fragen with
  | nil => rfl
  | cons e rest ih =>
      cases e with
      | obj fs =>
          simp only [exactTier, List.filterMap_cons, List.filter_cons, isExactHit]
          by_cases h : normJson (questionGetD fs) = snorm
          · simp only [if_pos h, beq_iff_eq, h, if_pos]
            simp only [exactTier] at ih
            simp [ih]
          · rw [if_neg h, if_neg (by simpa using h)]
            exact ih
      | null => simpa [exactTier, List.filterMap_cons, List.filter_cons, isExactHit] using ih
      | bool b => simpa [exactTier, List.filterMap_cons, List.filter_cons, isExactHit] using ih
      | num n => simpa [exactTier, List.filterMap_cons, List.filter_cons, isExactHit] using ih
      | str s => simpa [exactTier, List.filterMap_cons, List.filter_cons, isExactHit] using ih
      | arr xs => simpa [exactTier, List.filterMap_cons, List.filter_cons, isExactHit] using ih

/-- C4 counterexample: with the corpus `[{"question": "ab", "answer": "x"}]`
and the snippet `"ab"`, the entry's normalised question equals the
normalised snippet, yet the matcher returns `[]` (the under-3-characters
early exit), not the exact-tier match. -/
theorem short_snippet_suppresses_exact_tier :
    isExactHit (normalisiere_text "ab")
        (.obj [("question", .str "ab"), ("answer", .str "x")]) = true
    ∧ finde_passende_fragen_robust
        [.obj [("question", .str "ab"), ("answer", .str "x")]] "ab" = []
    ∧ ((Json.obj [("question", .str "ab"), ("answer", .str "x")])
        ∈ ([.obj [("question", .str "ab"), ("answer", .str "x")]] : List Json).filter
            (isExactHit (normalisiere_text "ab"))) := by
  refine ⟨by decide, by decide, by decide⟩

/-- C4 amended: provided the snippet survives the early exits (it is
non-empty and has at least 3 characters after trimming), if some entry's
normalised question equals the normalised snippet then the matcher returns
exactly the first at-most-five exact-tier entries in corpus order — so
every returned entry's normalised question equals the normalised snippet —
and the substring and fuzzy tiers contribute nothing. -/
theorem exact_tier_dominance (fragen : List Json) (suchtext : String)
    (hne : suchtext.isEmpty = false) (hlen : 3 ≤ (pyStripStr suchtext).length)
    (hex : ∃ e ∈ fragen, isExactHit (normalisiere_text suchtext) e = true) :
    finde_passende_fragen_robust fragen suchtext
        = (fragen.filter (isExactHit (normalisiere_text suchtext))).take 5
    ∧ ∀ e ∈ finde_passende_fragen_robust fragen suchtext,
        isExactHit (normalisiere_text suchtext) e = true := by
  have hmain : finde_passende_fragen_robust fragen suchtext
      = (fragen.filter (isExactHit (normalisiere_text suchtext))).take 5 := by
    unfold finde_passende_fragen_robust
    rw [if_neg (by
      rintro (h | h)
      · rw [hne] at h; exact absurd h (by simp)
      · omega)]
    rw [if_neg (by rw [normalisiere_ne_empty hlen]; simp)]
    have hfil : fragen.filter (isExactHit (normalisiere_text suchtext)) ≠ [] := by
      obtain ⟨e, he, hhit⟩ := hex
      exact List.ne_nil_of_mem (List.mem_filter.mpr ⟨he, hhit⟩)
    have hg1 : (exactTier fragen (normalisiere_text suchtext)).isEmpty = false := by
      rw [exactTier_eq_filter]
      cases hf : fragen.filter (isExactHit (normalisiere_text suchtext)) with
      | nil => exact absurd hf hfil
      | cons a t => rfl
    have hsorted : List.Sorted scoreOrder
        (exactTier fragen (normalisiere_text suchtext)) := by
      rw [exactTier_eq_filter]
      have hall : ∀ l : List Json,
          List.Sorted scoreOrder (l.map (fun e => (e, (100 : Rat)))) := by
        intro l
        induction l with
        | nil => simp
        | cons a t ih =>
            simp only [List.map_cons]
            refine List.Pairwise.cons ?_ ih
            intro b hb
            obtain ⟨x, _, rfl⟩ := List.mem_map.mp hb
            exact le_refl (100 : Rat)
      exact hall _
    simp only [hg1, Bool.false_eq_true, if_false]
    rw [List.Sorted.insertionSort_eq hsorted, exactTier_eq_filter, ← List.map_take,
      List.map_map]
    rw [show ((fun p : Json × Rat => p.1) ∘ fun e : Json => (e, (100 : Rat))) = id from rfl,
      List.map_id]
  refine ⟨hmain, ?_⟩
  intro e he
  rw [hmain] at he
  exact List.of_mem_filter ((List.take_sublist _ _).mem he)

/-- Witness for the amended C4 at a concrete corpus and snippet. -/
theorem exact_tier_dominance_witness :
    ("What is 2+2?" : String).isEmpty = false
    ∧ 3 ≤ (pyStripStr "What is 2+2?").length
    ∧ (finde_passende_fragen_robust
          [.obj [("question", .str "what is 2+2?"), ("answer", .str "4")]] "What is 2+2?"
        = (([.obj [("question", .str "what is 2+2?"), ("answer", .str "4")]] : List Json).filter
            (isExactHit (normalisiere_text "What is 2+2?"))).take 5
      ∧ ∀ e ∈ finde_passende_fragen_robust
          [.obj [("question", .str "what is 2+2?"), ("answer", .str "4")]] "What is 2+2?",
          isExactHit (normalisiere_text "What is 2+2?") e = true) :=
  ⟨rfl, by decide,
    exact_tier_dominance
      [.obj [("question", .str "what is 2+2?"), ("answer", .str "4")]] "What is 2+2?"
      rfl (by decide) (by decide)⟩

/-- C6: whenever the substring tier runs — that is, the exact tier produced
zero candidates — every candidate `(e, s)` it yields scores exactly
`80 * (min(len_a, len_b) / max(len_a, len_b))`, where `len_a` and `len_b`
are the lengths of the normalised snippet and of the entry's normalised
question, and that score is strictly below 80. -/
theorem substring_tier_score (fragen : List Json) (snorm : String)
    (hex : exactTier fragen snorm = [])
    (e : Json) (s : Rat) (hmem : (e, s) ∈ substrTier fragen snorm) :
    ∃ fs, e = .obj fs
      ∧ s = 80 * (((min snorm.length (normJson (questionGetD fs)).length : Nat) : Rat)
          / ((max snorm.length (normJson (questionGetD fs)).length : Nat) : Rat))
      ∧ s < 80 := by
  obtain ⟨a, ha, hfa⟩ := List.mem_filterMap.mp hmem
  cases a with
  | obj fs =>
      refine ⟨fs, ?_⟩
      simp only at hfa
      by_cases hemp : (normJson (questionGetD fs)).isEmpty
      · rw [if_pos hemp] at hfa
        exact absurd hfa (by simp)
      · rw [if_neg hemp] at hfa
        by_cases hinf : (pyIn snorm (normJson (questionGetD fs))
            || pyIn (normJson (questionGetD fs)) snorm) = true
        · rw [if_pos hinf] at hfa
          obtain ⟨he, hs⟩ := Prod.mk.injEq .. ▸ Option.some.inj hfa
          have hnex : normJson (questionGetD fs) ≠ snorm := by
            have hfil := List.filter_eq_nil_iff.mp
              (by
                have := exactTier_eq_filter fragen snorm
                rw [hex] at this
                exact (List.map_eq_nil_iff.mp this.symm))
            have := hfil _ ha
            simp only [isExactHit, beq_iff_eq] at this
            exact fun hc => this (by simp [hc])
          have hlb : 0 < (normJson (questionGetD fs)).length := by
            by_contra hz
            have h0 : (normJson (questionGetD fs)).data.length = 0 := by
              have : (normJson (questionGetD fs)).length
                  = (normJson (questionGetD fs)).data.length := rfl
              omega
            have : normJson (questionGetD fs) = "" :=
              String.ext (List.eq_nil_of_length_eq_zero h0)
            rw [this] at hemp
            exact hemp rfl
          have hlen_ne : snorm.length ≠ (normJson (questionGetD fs)).length := by
            intro hleq
            have hdata : snorm.data.length = (normJson (questionGetD fs)).data.length := hleq
            rcases Bool.or_eq_true .. ▸ hinf with h | h
            · have hi : snorm.data <:+: (normJson (questionGetD fs)).data :=
                of_decide_eq_true h
              exact hnex (String.ext (hi.eq_of_length hdata)).symm
            · have hi : (normJson (questionGetD fs)).data <:+: snorm.data :=
                of_decide_eq_true h
              exact hnex (String.ext (hi.eq_of_length hdata.symm))
          have hminmax : min snorm.length (normJson (questionGetD fs)).length
              < max snorm.length (normJson (questionGetD fs)).length :=
            min_lt_max.mpr hlen_ne
          have hmaxpos : 0 < max snorm.length (normJson (questionGetD fs)).length :=
            lt_of_le_of_lt (Nat.zero_le _) hminmax
          have hsval : s = ((min snorm.length (normJson (questionGetD fs)).length
                * 80 : Nat) : Rat)
              / ((max snorm.length (normJson (questionGetD fs)).length : Nat) : Rat) := by
            rw [← hs, Rat.mkRat_eq_divInt, Rat.divInt_eq_div]
            push_cast
            ring
          refine ⟨he.symm, ?_, ?_⟩
          · rw [hsval]
            push_cast
            rw [mul_comm, mul_div_assoc]
          · rw [hsval]
            rw [div_lt_iff₀ (by exact_mod_cast hmaxpos)]
            push_cast
            have : (min snorm.length (normJson (questionGetD fs)).length : Rat)
                < (max snorm.length (normJson (questionGetD fs)).length : Rat) := by
              exact_mod_cast hminmax
            nlinarith
        · rw [if_neg hinf] at hfa
          exact absurd hfa (by simp)
  | null => exact absurd hfa (by simp)
  | bool b => exact absurd hfa (by simp)
  | num n => exact absurd hfa (by simp)
  | str s' => exact absurd hfa (by simp)
  | arr xs => exact absurd hfa (by simp)

/-- Witness for C6 at a concrete corpus and normalised snippet. -/
theorem substring_tier_score_witness :
    exactTier [.obj [("question", .str "hello world"), ("answer", .str "x")]] "hello" = []
    ∧ ((Json.obj [("question", .str "hello world"), ("answer", .str "x")], mkRat 400 11)
        ∈ substrTier [.obj [("question", .str "hello world"), ("answer", .str "x")]] "hello")
    ∧ ∃ fs, Json.obj [("question", .str "hello world"), ("answer", .str "x")] = .obj fs
        ∧ mkRat 400 11
            = 80 * (((min ("hello" : String).length
                  (normJson (questionGetD fs)).length : Nat) : Rat)
                / ((max ("hello" : String).length
                  (normJson (questionGetD fs)).length : Nat) : Rat))
        ∧ mkRat 400 11 < 80 :=
  ⟨by decide, by decide,
    substring_tier_score [.obj [("question", .str "hello world"), ("answer", .str "x")]]
      "hello" (by decide) (.obj [("question", .str "hello world"), ("answer", .str "x")])
      (mkRat 400 11) (by decide)⟩

/-- The matcher, written with the tier selection as one expression (pure
unfolding of the definition). -/
theorem finde_eq (fragen : List Json) (suchtext : String) :
    finde_passende_fragen_robust fragen suchtext
      = if suchtext.isEmpty ∨ (pyStripStr suchtext).length < 3 then []
        else if (normalisiere_text suchtext).isEmpty then []
        else ((List.insertionSort scoreOrder
            (if (exactTier fragen (normalisiere_text suchtext)).isEmpty then
              (if (substrTier fragen (normalisiere_text suchtext)).isEmpty then
                fuzzyTier fragen suchtext
              else substrTier fragen (normalisiere_text suchtext))
            else exactTier fragen (normalisiere_text suchtext))).take 5).map
          (fun p => p.1) := rfl

/-- Entries of the exact and substring tiers are the source entries, and in
either tier the entry's `question` key is present (a missing key defaults
to `""`, whose normalisation is empty and matches neither tier when the
normalised snippet is non-empty). -/
theorem tier_pairwise_ne {f : Json → Option (Json × Rat)} {fragen : List Json}
    (hdist : fragen.Pairwise
      (fun a b => ∀ v, questionVal a = some v → questionVal b ≠ some v))
    (hf : ∀ a p, f a = some p → p.1 = a ∧ (questionVal a).isSome) :
    (fragen.filterMap f).Pairwise (fun p q => p.1 ≠ q.1) := by
  rw [List.pairwise_filterMap]
  refine hdist.imp ?_
  intro a b hab p hp q hq
  obtain ⟨hpa, hva⟩ := hf a p hp
  obtain ⟨hqb, hvb⟩ := hf b q hq
  obtain ⟨va, hva'⟩ := Option.isSome_iff_exists.mp hva
  rw [hpa, hqb]
  intro he
  exact hab va hva' (he ▸ hva')

/-- In the exact tier (with non-empty normalised snippet) every hit's
question key is present. -/
theorem exactTier_f_sound {snorm : String} (hsn : snorm ≠ "") :
    ∀ (a : Json) (p : Json × Rat),
      (match a with
        | .obj fs => if normJson (questionGetD fs) = snorm then some (a, (100 : Rat))
            else none
        | _ => none) = some p → p.1 = a ∧ (questionVal a).isSome := by
  intro a p hp
  cases a with
  | obj fs =>
      simp only at hp
      by_cases h : normJson (questionGetD fs) = snorm
      · rw [if_pos h] at hp
        refine ⟨(Option.some.inj hp).symm ▸ rfl, ?_⟩
        cases hq : lookupField fs "question" with
        | some v => simp [questionVal, hq]
        | none =>
            rw [show questionGetD fs = .str "" by simp [questionGetD, hq],
              show normJson (.str "") = "" from rfl] at h
            exact absurd h.symm hsn
      · rw [if_neg h] at hp
        exact absurd hp (by simp)
  | null => exact absurd hp (by simp)
  | bool b => exact absurd hp (by simp)
  | num n => exact absurd hp (by simp)
  | str s => exact absurd hp (by simp)
  | arr xs => exact absurd hp (by simp)

/-- In the substring tier every hit's question key is present (a blank
normalised question is skipped). -/
theorem substrTier_f_sound (snorm : String) :
    ∀ (a : Json) (p : Json × Rat),
      (match a with
        | .obj fs =>
            if (normJson (questionGetD fs)).isEmpty then none
            else if pyIn snorm (normJson (questionGetD fs))
                || pyIn (normJson (questionGetD fs)) snorm then
              some (a, mkRat (min snorm.length (normJson (questionGetD fs)).length * 80)
                (max snorm.length (normJson (questionGetD fs)).length))
            else none
        | _ => none) = some p → p.1 = a ∧ (questionVal a).isSome := by
  intro a p hp
  cases a with
  | obj fs =>
      simp only at hp
      by_cases h : (normJson (questionGetD fs)).isEmpty
      · rw [if_pos h] at hp
        exact absurd hp (by simp)
      · rw [if_neg h] at hp
        by_cases h2 : (pyIn snorm (normJson (questionGetD fs))
            || pyIn (normJson (questionGetD fs)) snorm) = true
        · rw [if_pos h2] at hp
          refine ⟨(Option.some.inj hp).symm ▸ rfl, ?_⟩
          cases hq : lookupField fs "question" with
          | some v => simp [questionVal, hq]
          | none =>
              rw [show questionGetD fs = .str "" by simp [questionGetD, hq]] at h
              exact absurd rfl h
        · rw [if_neg h2] at hp
          exact absurd hp (by simp)
  | null => exact absurd hp (by simp)
  | bool b => exact absurd hp (by simp)
  | num n => exact absurd hp (by simp)
  | str s => exact absurd hp (by simp)
  | arr xs => exact absurd hp (by simp)

/-- Unfolding of `fuzzyTexts` on a dict entry. -/
theorem fuzzyTexts_cons_obj (fs : List (String × Json)) (rest : List Json) :
    fuzzyTexts (.obj fs :: rest)
      = match lookupField fs "question" with
        | some v =>
            if v.truthy then
              match v with
              | .str s => (fuzzyTexts rest).map (fun ts => s :: ts)
              | _ => none
            else fuzzyTexts rest
        | none => fuzzyTexts rest := rfl

/-- Every collected fuzzy text is the string question of some entry. -/
theorem fuzzyTexts_mem : ∀ (fragen : List Json) (ts : List String),
    fuzzyTexts fragen = some ts → ∀ t ∈ ts, ∃ b ∈ fragen, questionVal b = some (.str t)
  | [], ts, hts, t, ht => by
      have h0 : some ([] : List String) = some ts := hts
      rw [← Option.some.inj h0] at ht
      simp at ht
  | e :: rest, ts, hts, t, ht => by
      cases e with
      | obj fs =>
          rw [fuzzyTexts_cons_obj] at hts
          cases hq : lookupField fs "question" with
          | some v =>
              simp only [hq] at hts
              by_cases htr : v.truthy
              · rw [if_pos htr] at hts
                cases v with
                | str s =>
                    have hts2 : (fuzzyTexts rest).map (fun l => s :: l) = some ts := hts
                    cases hrest : fuzzyTexts rest with
                    | none => rw [hrest] at hts2; exact absurd hts2 (by simp)
                    | some ts' =>
                        rw [hrest] at hts2
                        have hts' : s :: ts' = ts := by simpa using hts2
                        rw [← hts'] at ht
                        rcases List.mem_cons.mp ht with rfl | ht'
                        · exact ⟨.obj fs, List.mem_cons_self _ _,
                            by simp [questionVal, hq]⟩
                        · obtain ⟨b, hb, hbv⟩ := fuzzyTexts_mem rest ts' hrest t ht'
                          exact ⟨b, List.mem_cons_of_mem _ hb, hbv⟩
                | null =>
                    have hts2 : (none : Option (List String)) = some ts := hts
                    exact absurd hts2 (by simp)
                | bool b =>
                    have hts2 : (none : Option (List String)) = some ts := hts
                    exact absurd hts2 (by simp)
                | num n =>
                    have hts2 : (none : Option (List String)) = some ts := hts
                    exact absurd hts2 (by simp)
                | arr xs =>
                    have hts2 : (none : Option (List String)) = some ts := hts
                    exact absurd hts2 (by simp)
                | obj fs2 =>
                    have hts2 : (none : Option (List String)) = some ts := hts
                    exact absurd hts2 (by simp)
              · rw [if_neg htr] at hts
                obtain ⟨b, hb, hbv⟩ := fuzzyTexts_mem rest ts hts t ht
                exact ⟨b, List.mem_cons_of_mem _ hb, hbv⟩
          | none =>
              simp only [hq] at hts
              obtain ⟨b, hb, hbv⟩ := fuzzyTexts_mem rest ts hts t ht
              exact ⟨b, List.mem_cons_of_mem _ hb, hbv⟩
      | null =>
          have hts2 : (none : Option (List String)) = some ts := hts
          exact absurd hts2 (by simp)
      | bool b =>
          have hts2 : (none : Option (List String)) = some ts := hts
          exact absurd hts2 (by simp)
      | num n =>
          have hts2 : (none : Option (List String)) = some ts := hts
          exact absurd hts2 (by simp)
      | str s =>
          have hts2 : (none : Option (List String)) = some ts := hts
          exact absurd hts2 (by simp)
      | arr xs =>
          have hts2 : (none : Option (List String)) = some ts := hts
          exact absurd hts2 (by simp)

/-- With pairwise-distinct question values the collected fuzzy texts are
distinct. -/
theorem fuzzyTexts_nodup : ∀ (fragen : List Json),
    fragen.Pairwise (fun a b => ∀ v, questionVal a = some v → questionVal b ≠ some v) →
    ∀ ts, fuzzyTexts fragen = some ts → ts.Nodup
  | [], _, ts, hts => by
      have h0 : some ([] : List String) = some ts := hts
      rw [← Option.some.inj h0]
      exact List.nodup_nil
  | e :: rest, hdist, ts, hts => by
      obtain ⟨hhead, htail⟩ := List.pairwise_cons.mp hdist
      cases e with
      | obj fs =>
          rw [fuzzyTexts_cons_obj] at hts
          cases hq : lookupField fs "question" with
          | some v =>
              simp only [hq] at hts
              by_cases htr : v.truthy
              · rw [if_pos htr] at hts
                cases v with
                | str s =>
                    have hts2 : (fuzzyTexts rest).map (fun l => s :: l) = some ts := hts
                    cases hrest : fuzzyTexts rest with
                    | none => rw [hrest] at hts2; exact absurd hts2 (by simp)
                    | some ts' =>
                        rw [hrest] at hts2
                        have hts' : s :: ts' = ts := by simpa using hts2
                        rw [← hts']
                        refine List.nodup_cons.mpr ⟨?_, fuzzyTexts_nodup rest htail ts' hrest⟩
                        intro hmem
                        obtain ⟨b, hb, hbv⟩ := fuzzyTexts_mem rest ts' hrest s hmem
                        exact hhead b hb (.str s) (by simp [questionVal, hq]) hbv
                | null =>
                    have hts2 : (none : Option (List String)) = some ts := hts
                    exact absurd hts2 (by simp)
                | bool b =>
                    have hts2 : (none : Option (List String)) = some ts := hts
                    exact absurd hts2 (by simp)
                | num n =>
                    have hts2 : (none : Option (List String)) = some ts := hts
                    exact absurd hts2 (by simp)
                | arr xs =>
                    have hts2 : (none : Option (List String)) = some ts := hts
                    exact absurd hts2 (by simp)
                | obj fs2 =>
                    have hts2 : (none : Option (List String)) = some ts := hts
                    exact absurd hts2 (by simp)
              · rw [if_neg htr] at hts
                exact fuzzyTexts_nodup rest htail ts hts
          | none =>
              simp only [hq] at hts
              exact fuzzyTexts_nodup rest htail ts hts
      | null =>
          have hts2 : (none : Option (List String)) = some ts := hts
          exact absurd hts2 (by simp)
      | bool b =>
          have hts2 : (none : Option (List String)) = some ts := hts
          exact absurd hts2 (by simp)
      | num n =>
          have hts2 : (none : Option (List String)) = some ts := hts
          exact absurd hts2 (by simp)
      | str s =>
          have hts2 : (none : Option (List String)) = some ts := hts
          exact absurd hts2 (by simp)
      | arr xs =>
          have hts2 : (none : Option (List String)) = some ts := hts
          exact absurd hts2 (by simp)

/-- `get_close_matches`, written with the scoring stage as one expression. -/
theorem getCloseMatches_eq (w : String) (poss : List String) (n : Nat) (cutoff : Rat) :
    Difflib.getCloseMatches w poss n cutoff
      = ((List.insertionSort Difflib.nlargestOrder (poss.filterMap (fun x =>
            if cutoff ≤ Difflib.ratioQ x.data w.data
            then some (Difflib.ratioQ x.data w.data, x) else none))).take n).map
          (fun p => p.2) := rfl

/-- `get_close_matches` over pairwise-distinct possibilities returns
pairwise-distinct matches. -/
theorem getCloseMatches_nodup (w : String) (poss : List String) (n : Nat)
    (cutoff : Rat) (h : poss.Nodup) :
    (Difflib.getCloseMatches w poss n cutoff).Nodup := by
  rw [getCloseMatches_eq]
  have hsc : (poss.filterMap (fun x =>
      if cutoff ≤ Difflib.ratioQ x.data w.data
      then some (Difflib.ratioQ x.data w.data, x) else none)).Pairwise
      (fun p q => p.2 ≠ q.2) := by
    rw [List.pairwise_filterMap]
    refine h.imp ?_
    intro a b hab p hp q hq
    by_cases ha : cutoff ≤ Difflib.ratioQ a.data w.data
    · rw [if_pos ha] at hp
      by_cases hb : cutoff ≤ Difflib.ratioQ b.data w.data
      · rw [if_pos hb] at hq
        rw [← Option.some.inj hp, ← Option.some.inj hq]
        simpa using hab
      · rw [if_neg hb] at hq
        exact absurd hq (by simp)
    · rw [if_neg ha] at hp
      exact absurd hp (by simp)
  have hsorted : (List.insertionSort Difflib.nlargestOrder (poss.filterMap (fun x =>
      if cutoff ≤ Difflib.ratioQ x.data w.data
      then some (Difflib.ratioQ x.data w.data, x) else none))).Pairwise
      (fun p q => p.2 ≠ q.2) :=
    ((List.perm_insertionSort _ _).pairwise_iff (fun hx => hx.symm)).mpr hsc
  exact List.pairwise_map.mpr (hsorted.sublist (List.take_sublist _ _))

/-- The fuzzy tier yields pairwise-distinct entries when no two corpus
entries carry the same question value. -/
theorem fuzzyTier_pairwise (fragen : List Json) (suchtext : String)
    (hdist : fragen.Pairwise
      (fun a b => ∀ v, questionVal a = some v → questionVal b ≠ some v)) :
    (fuzzyTier fragen suchtext).Pairwise (fun p q => p.1 ≠ q.1) := by
  unfold fuzzyTier
  cases hts : fuzzyTexts fragen with
  | none => exact List.Pairwise.nil
  | some texte =>
      have hnd : (Difflib.getCloseMatches suchtext texte 3 (mkRat 3 5)).Nodup :=
        getCloseMatches_nodup _ _ _ _ (fuzzyTexts_nodup fragen hdist texte hts)
      rw [List.pairwise_filterMap]
      refine hnd.imp ?_
      intro m1 m2 hne p hp q hq
      obtain ⟨e1, he1, hpe⟩ := Option.map_eq_some'.mp hp
      obtain ⟨e2, he2, hqe⟩ := Option.map_eq_some'.mp hq
      have h1 := List.find?_some he1
      have h2 := List.find?_some he2
      rw [beq_iff_eq] at h1 h2
      rw [← hpe, ← hqe]
      intro hee
      have hee' : e1 = e2 := hee
      rw [hee', h2] at h1
      exact hne (by simpa using h1.symm)

/-- Transport of first-component distinctness through the final sort, cut
and projection of the matcher. -/
theorem nodup_sort_take_map {l : List (Json × Rat)}
    (h : l.Pairwise (fun p q => p.1 ≠ q.1)) :
    (((List.insertionSort scoreOrder l).take 5).map (fun p => p.1)).Nodup := by
  have hs : (List.insertionSort scoreOrder l).Pairwise (fun p q => p.1 ≠ q.1) :=
    ((List.perm_insertionSort _ _).pairwise_iff (fun hx => hx.symm)).mpr h
  exact List.pairwise_map.mpr (hs.sublist (List.take_sublist _ _))

/-- C2 counterexample: with two corpus entries sharing the raw question
text "abcdef" and the snippet "abcdxy", only the fuzzy tier fires; the
duplicated question text passes the 0.6 cutoff twice, and both matches map
back to the *first* entry carrying that question, so the same entry is
returned at positions 0 and 1. -/
theorem fuzzy_tier_duplicates_entry :
    finde_passende_fragen_robust
        [.obj [("question", .str "abcdef"), ("answer", .str "a1")],
         .obj [("question", .str "abcdef"), ("answer", .str "a2")]] "abcdxy"
      = [.obj [("question", .str "abcdef"), ("answer", .str "a1")],
         .obj [("question", .str "abcdef"), ("answer", .str "a1")]]
    ∧ ¬ (finde_passende_fragen_robust
        [.obj [("question", .str "abcdef"), ("answer", .str "a1")],
         .obj [("question", .str "abcdef"), ("answer", .str "a2")]] "abcdxy").Nodup := by
  exact ⟨by decide, by decide⟩

/-- C2 amended: provided no two corpus entries carry the same `question`
value, the matcher's result holds no entry twice — the duplication in the
counterexample needs two entries with the same raw question text, which
makes `get_close_matches` return the text twice and both occurrences map
back to the first such entry. -/
theorem matcher_no_duplicates (fragen : List Json) (suchtext : String)
    (hdist : fragen.Pairwise
      (fun a b => ∀ v, questionVal a = some v → questionVal b ≠ some v)) :
    (finde_passende_fragen_robust fragen suchtext).Nodup := by
  rw [finde_eq]
  by_cases h1 : (suchtext.isEmpty ∨ (pyStripStr suchtext).length < 3)
  · rw [if_pos h1]; exact List.nodup_nil
  · rw [if_neg h1]
    by_cases h2 : (normalisiere_text suchtext).isEmpty
    · rw [if_pos h2]; exact List.nodup_nil
    · rw [if_neg h2]
      have hsn : normalisiere_text suchtext ≠ "" := by
        intro hx
        rw [hx] at h2
        exact h2 rfl
      refine nodup_sort_take_map ?_
      by_cases hg1 : (exactTier fragen (normalisiere_text suchtext)).isEmpty
      · rw [if_pos hg1]
        by_cases hg2 : (substrTier fragen (normalisiere_text suchtext)).isEmpty
        · rw [if_pos hg2]
          exact fuzzyTier_pairwise fragen suchtext hdist
        · rw [if_neg hg2]
          unfold substrTier
          exact tier_pairwise_ne hdist (substrTier_f_sound _)
      · rw [if_neg hg1]
        unfold exactTier
        exact tier_pairwise_ne hdist (exactTier_f_sound hsn)

/-- Witness for the amended C2 at a concrete corpus with distinct question
texts. -/
theorem matcher_no_duplicates_witness :
    (finde_passende_fragen_robust
        [.obj [("question", .str "abcdef"), ("answer", .str "a1")],
         .obj [("question", .str "abcdeg"), ("answer", .str "a2")]] "abcdxy").Nodup :=
  matcher_no_duplicates
    [.obj [("question", .str "abcdef"), ("answer", .str "a1")],
     .obj [("question", .str "abcdeg"), ("answer", .str "a2")]] "abcdxy" (by decide)

/-! ## Watch loop theorem (C8) -/

/-- C8: an iteration entered with `error_count ≥ max_errors` (10) performs
only the (possibly due) periodic connection check and the 30-second
circuit-breaker pause — no clipboard read, no matching and no send is
attempted; if the pause is not interrupted by shutdown, the iteration
continues with `error_count` reset to 0 (and `letzter_inhalt` unchanged)
before any further processing, and a shutdown during the pause exits the
loop. -/
theorem circuit_breaker_pause (fragen : List Json) (env : IterEnv) (st : LoopState)
    (h : maxErrors ≤ st.health.errorCount) :
    (monitorStep fragen env st).2
      = (if env.connCheckDue then [Event.connCheck env.connCheckOk] else [])
          ++ [.pause 30]
    ∧ Event.clipboardRead ∉ (monitorStep fragen env st).2
    ∧ Event.matchRun ∉ (monitorStep fragen env st).2
    ∧ (∀ m, Event.sendMsg m ∉ (monitorStep fragen env st).2)
    ∧ (env.pauseInterrupted = false →
        (monitorStep fragen env st).1
          = .next ⟨⟨if env.connCheckDue then env.connCheckOk else st.health.alive, 0⟩,
              st.letzterInhalt⟩)
    ∧ (env.pauseInterrupted = true → (monitorStep fragen env st).1 = .exit) := by
  have hstep : monitorStep fragen env st
      = (if env.pauseInterrupted then .exit
          else .next ⟨⟨if env.connCheckDue then env.connCheckOk else st.health.alive, 0⟩,
            st.letzterInhalt⟩,
        (if env.connCheckDue then [Event.connCheck env.connCheckOk] else [])
          ++ [.pause 30]) := by
    unfold monitorStep
    rw [if_pos h]
    by_cases hp : env.pauseInterrupted <;> simp [hp]
  rw [hstep]
  refine ⟨rfl, ?_, ?_, ?_, ?_, ?_⟩
  · by_cases hd : env.connCheckDue <;> simp [hd]
  · by_cases hd : env.connCheckDue <;> simp [hd]
  · intro m
    by_cases hd : env.connCheckDue <;> simp [hd]
  · intro hp; simp [hp]
  · intro hp; simp [hp]

/-- Witness for C8 at a concrete environment and state with
`error_count = 10`. -/
theorem circuit_breaker_pause_witness :
    (monitorStep [] ⟨false, false, false, some "", fun _ _ => .success, false⟩
        ⟨⟨true, 10⟩, ""⟩).2
      = (if (false : Bool) then [Event.connCheck false] else []) ++ [.pause 30]
    ∧ Event.clipboardRead ∉ (monitorStep []
        ⟨false, false, false, some "", fun _ _ => .success, false⟩ ⟨⟨true, 10⟩, ""⟩).2
    ∧ Event.matchRun ∉ (monitorStep []
        ⟨false, false, false, some "", fun _ _ => .success, false⟩ ⟨⟨true, 10⟩, ""⟩).2
    ∧ (∀ m, Event.sendMsg m ∉ (monitorStep []
        ⟨false, false, false, some "", fun _ _ => .success, false⟩ ⟨⟨true, 10⟩, ""⟩).2)
    ∧ ((false : Bool) = false →
        (monitorStep [] ⟨false, false, false, some "", fun _ _ => .success, false⟩
            ⟨⟨true, 10⟩, ""⟩).1
          = .next ⟨⟨if (false : Bool) then false else true, 0⟩, ""⟩)
    ∧ ((false : Bool) = true →
        (monitorStep [] ⟨false, false, false, some "", fun _ _ => .success, false⟩
            ⟨⟨true, 10⟩, ""⟩).1 = .exit) :=
  circuit_breaker_pause [] ⟨false, false, false, some "", fun _ _ => .success, false⟩
    ⟨⟨true, 10⟩, ""⟩ (by decide)

/-! ## Normalisation theorem (C9) -/

/-- C9: the text normalisation of `normalisiere_text` (lowercase, trim,
collapse internal whitespace runs to single spaces) is idempotent:
`normalize(normalize(s)) = normalize(s)` for every string `s`. -/
theorem normalize_idempotent (s : String) :
    normalisiere_text (normalisiere_text s) = normalisiere_text s :=
  congrArg String.mk (normChars_idem s.data)

end QA
